import Mathlib

/-!
Verification of the pc2grid merge script: a shallow embedding of
src/scripts/pc2grid_merge.py.  Raster samples are modelled as exact
rationals, raster buffers as total functions from row/column indices to
values, and the GDAL/numpy calls by explicit error returns mirroring the
failures the script can hit at run time.
-/

unseal Rat.add Rat.mul Rat.sub Rat.inv

/-- Geotransform of a grid: origin and signed pixel sizes (the skew
terms are the constant 0 in the script and are omitted). -/
structure GT where
  x0 : ℚ
  resx : ℚ
  y0 : ℚ
  resy : ℚ
deriving DecidableEq

/-- An input raster tile: geotransform, pixel dimensions, band count,
projection and driver descriptors, per-band no-data sentinel as read
from the metadata, and per-band sample data (band, row, column). -/
structure Tile where
  trans : GT
  cols : ℕ
  rows : ℕ
  bands : ℕ
  proj : String
  drv : String
  nodata : ℕ → ℚ
  data : ℕ → ℕ → ℕ → ℚ

/-- Run-time failures of the script: NameError / ZeroDivisionError from
get_bounds, numpy IndexError, a failed GDAL read, a missing raster
band, a failed GDAL Create.  boundsOverflow is the BoundsOverflowError
the specification describes for a tile mapping outside the output
grid. -/
inductive MErr where
  | nameError
  | zeroDivision
  | indexError
  | readError
  | bandMissing
  | createError
  | boundsOverflow
deriving DecidableEq

abbrev Buf := ℕ → ℕ → ℚ

instance exceptDecEq {ε α : Type} [DecidableEq ε] [DecidableEq α] : DecidableEq (Except ε α) :=
  fun a b =>
    match a, b with
    | .ok x, .ok y =>
      if h : x = y then isTrue (by rw [h]) else isFalse (by intro hh; cases hh; exact h rfl)
    | .error x, .error y =>
      if h : x = y then isTrue (by rw [h]) else isFalse (by intro hh; cases hh; exact h rfl)
    | .ok _, .error _ => isFalse (by intro hh; cases hh)
    | .error _, .ok _ => isFalse (by intro hh; cases hh)

def isOkE {ε α : Type} : Except ε α → Bool
  | .ok _ => true
  | .error _ => false

/-- The fixed output no-data sentinel of the script (nd = -9999.). -/
def nd : ℚ := -9999

/-- Floor of a rational, computably (the denominator is positive). -/
def ratFloor (q : ℚ) : ℤ := q.num.fdiv q.den

/-- Python int() on a rational: truncation toward zero. -/
def pytrunc (q : ℚ) : ℤ := if 0 ≤ q then ratFloor q else -(ratFloor (-q))

def to_x (c : ℤ) (T : GT) : ℚ := T.x0 + c * T.resx + (1/2) * T.resx

def to_y (r : ℤ) (T : GT) : ℚ := T.y0 + r * T.resy + (1/2) * T.resy

def to_c (x : ℚ) (T : GT) : ℤ := pytrunc ((x - T.x0) / T.resx)

def to_r (y : ℚ) (T : GT) : ℤ := pytrunc ((y - T.y0) / T.resy)

/-- x2 of a tile: x1 + cols * resx. -/
def tileX2 (t : Tile) : ℚ := t.trans.x0 + t.cols * t.trans.resx

/-- y2 of a tile: y1 + rows * resy. -/
def tileY2 (t : Tile) : ℚ := t.trans.y0 + t.rows * t.trans.resy

/-- Everything get_bounds returns: the four bounds, the resolution,
output pixel dimensions, and driver/band-count/projection metadata. -/
structure GB where
  b0 : ℚ
  b1 : ℚ
  b2 : ℚ
  b3 : ℚ
  resx : ℚ
  resy : ℚ
  cols : ℤ
  rows : ℤ
  drv : String
  bands : ℕ
  proj : String
deriving DecidableEq

/-- The bounding box of a single tile. -/
def tileBox (t : Tile) : ℚ × ℚ × ℚ × ℚ :=
  (min t.trans.x0 (tileX2 t), min t.trans.y0 (tileY2 t),
   max t.trans.x0 (tileX2 t), max t.trans.y0 (tileY2 t))

/-- One step of the bounds fold of get_bounds. -/
def boundsStep (b : ℚ × ℚ × ℚ × ℚ) (t : Tile) : ℚ × ℚ × ℚ × ℚ :=
  (min b.1 (min t.trans.x0 (tileX2 t)), min b.2.1 (min t.trans.y0 (tileY2 t)),
   max b.2.2.1 (max t.trans.x0 (tileX2 t)), max b.2.2.2 (max t.trans.y0 (tileY2 t)))

/-- get_bounds of the script: fold the union bounding box over all
tiles and keep the last tile's resolution, driver, band count and
projection.  The ±∞ seeds of the source's fold are modelled by seeding
with the first tile's box (equivalent on nonempty input); on empty
input resx is never assigned (NameError in the source), and a zero
resolution in the last tile raises ZeroDivisionError. -/
def get_bounds (infiles : List Tile) : Except MErr GB :=
  match infiles with
  | [] => .error .nameError
  | f :: rest =>
    let b := rest.foldl boundsStep (tileBox f)
    let last := rest.getLastD f
    if last.trans.resx = 0 ∨ last.trans.resy = 0 then .error .zeroDivision
    else .ok ⟨b.1, b.2.1, b.2.2.1, b.2.2.2, last.trans.resx, last.trans.resy,
      pytrunc ((b.2.2.1 - b.1) / |last.trans.resx|),
      pytrunc ((b.2.2.2 - b.2.1) / |last.trans.resy|),
      last.drv, last.bands, last.proj⟩

/-- os.path.basename for POSIX paths: the characters after the last
slash. -/
def basename (s : String) : List Char :=
  (s.data.reverse.takeWhile (fun ch => ch ≠ '/')).reverse

/-- Python's lexicographic string comparison, by code point. -/
def strLtB : List Char → List Char → Bool
  | [], [] => false
  | [], _ :: _ => true
  | _ :: _, [] => false
  | a :: as, b :: bs => if a < b then true else if b < a then false else strLtB as bs

def insertFile (a : String × Tile) : List (String × Tile) → List (String × Tile)
  | [] => [a]
  | p :: l =>
    if strLtB (basename p.1) (basename a.1) then p :: insertFile a l else a :: p :: l

/-- Stable sort by base file name, modelling
infiles.sort(key = lambda a: os.path.basename(a)). -/
def sortFiles : List (String × Tile) → List (String × Tile)
  | [] => []
  | a :: l => insertFile a (sortFiles l)

/-- Python range(n) for an integer bound (empty when negative). -/
def intRange (n : ℤ) : List ℕ := List.range n.toNat

/-- numpy basic-slice index normalization for a row of width n. -/
def pySliceIdx (start stop : ℤ) (n : ℕ) : ℤ × ℤ :=
  (if start < 0 then max (start + n) 0 else min start n,
   if stop < 0 then max (stop + n) 0 else min stop n)

/-- numpy integer row indexing: a negative index wraps once, anything
else out of range is an IndexError. -/
def effRow (r : ℤ) (rows : ℕ) : Option ℕ :=
  if 0 ≤ r ∧ r < (rows : ℤ) then some r.toNat
  else if -(rows : ℤ) ≤ r ∧ r < 0 then some (r + rows).toNat
  else none

/-- Geometry of one source row's write into the output buffers: output
row, first output column and width, or the run-time error the script
hits there (an empty/negative-width read, a bad row index, or a
boolean-mask length mismatch after slice clipping). -/
def stripSpec (T : GT) (colsOut rowsOut : ℕ) (t : Tile) (cols1 : ℤ) (r1 : ℕ) :
    Except MErr (ℕ × ℕ × ℕ) :=
  let c := to_c (to_x 0 t.trans) T
  let r := to_r (to_y r1 t.trans) T
  let colst := min ((colsOut : ℤ) - c) cols1
  if colst ≤ 0 then .error .readError
  else
    match effRow r rowsOut with
    | none => .error .indexError
    | some re =>
      let se := pySliceIdx c (c + colst) colsOut
      if se.2 - se.1 ≠ colst then .error .indexError
      else .ok (re, se.1.toNat, colst.toNat)

/-- Body of the inner row loop of merge: read the strip of band b,
mask cells equal to the fixed sentinel nd, and accumulate either the
raw counts (band 0, into the first buffer) or count-weighted values
(bands at least 1, into the second buffer). -/
def rowStep (T : GT) (colsOut rowsOut b : ℕ) (t : Tile) (cols1 : ℤ) (st : Buf × Buf) (r1 : ℕ) :
    Except MErr (Buf × Buf) :=
  match stripSpec T colsOut rowsOut t cols1 r1 with
  | .error e => .error e
  | .ok (re, s, w) =>
    if b = 0 then
      .ok (fun r' c' =>
        if r' = re ∧ s ≤ c' ∧ c' < s + w ∧ t.data 0 r1 (c' - s) ≠ nd then
          st.1 r' c' + t.data 0 r1 (c' - s)
        else st.1 r' c', st.2)
    else
      .ok (st.1, fun r' c' =>
        if r' = re ∧ s ≤ c' ∧ c' < s + w ∧ t.data b r1 (c' - s) ≠ nd then
          st.2 r' c' + t.data b r1 (c' - s) * t.data 0 r1 (c' - s)
        else st.2 r' c')

/-- Per-tile processing inside one band pass: re-derive the tile's
bounds via get_bounds on the singleton list, fetch the band
(GetRasterBand(b+1) is None when the band is missing and the
GetNoDataValue call on it then fails), and stream the tile's rows.
The tile's own sentinel nd1 is read but never used, exactly as in the
source. -/
def tileStep (T : GT) (colsOut rowsOut b : ℕ) (st : Buf × Buf) (t : Tile) :
    Except MErr (Buf × Buf) :=
  match get_bounds [t] with
  | .error e => .error e
  | .ok gb1 =>
    if t.bands ≤ b then .error .bandMissing
    else List.foldlM (rowStep T colsOut rowsOut b t gb1.cols) st (intRange gb1.rows)

/-- One band pass over all tiles. -/
def tilesPass (T : GT) (colsOut rowsOut b : ℕ) (tiles : List Tile) (st : Buf × Buf) :
    Except MErr (Buf × Buf) :=
  List.foldlM (tileStep T colsOut rowsOut b) st tiles

def zeroBuf : Buf := fun _ _ => 0

/-- Band finalization for value bands: weighted mean where counts are
positive, the fixed sentinel where counts are zero (a cell with
negative counts keeps its raw sum, as in the source). -/
def finalizeBand (sums counts : Buf) : Buf :=
  fun r c =>
    if 0 < counts r c then sums r c / counts r c
    else if counts r c = 0 then nd else sums r c

/-- Body of the outer band loop: refill sums with zeros, run the band
pass over all tiles, then write the band (band 0 writes the counts
buffer itself). -/
def bandStep (T : GT) (colsOut rowsOut : ℕ) (tiles : List Tile) (st : Buf × (ℕ → Buf)) (b : ℕ) :
    Except MErr (Buf × (ℕ → Buf)) :=
  match tilesPass T colsOut rowsOut b tiles (st.1, zeroBuf) with
  | .error e => .error e
  | .ok p =>
    if b = 0 then .ok (p.1, fun b' => if b' = 0 then p.1 else st.2 b')
    else .ok (p.1, fun b' => if b' = b then finalizeBand p.2 p.1 else st.2 b')

/-- The whole band loop, starting from zeroed counts and no bands
written. -/
def bandsFold (T : GT) (colsOut rowsOut : ℕ) (tiles : List Tile) (bands : ℕ) :
    Except MErr (Buf × (ℕ → Buf)) :=
  List.foldlM (bandStep T colsOut rowsOut tiles) (zeroBuf, fun _ => zeroBuf) (List.range bands)

/-- The finished output raster. -/
structure Output where
  cols : ℕ
  rows : ℕ
  bands : ℕ
  trans : GT
  proj : String
  drv : String
  data : ℕ → ℕ → ℕ → ℚ

/-- The output geotransform built by merge from the resolved bounds:
origin at the min corner for a positive resolution, at the max corner
otherwise. -/
def outTransOf (gb : GB) : GT :=
  ⟨if 0 < gb.resx then gb.b0 else gb.b2, gb.resx,
   if 0 < gb.resy then gb.b1 else gb.b3, gb.resy⟩

/-- merge of the script: sort inputs by base file name, resolve the
output grid, then accumulate band by band.  The output dataset is
created with the GTiff driver regardless of the inputs' drivers; a
non-positive output size or a zero band count makes GDAL Create fail
(and every later call on the None dataset with it). -/
def merge (files : List (String × Tile)) : Except MErr Output :=
  let tiles := (sortFiles files).map Prod.snd
  match get_bounds tiles with
  | .error e => .error e
  | .ok gb =>
    if gb.cols ≤ 0 ∨ gb.rows ≤ 0 ∨ gb.bands = 0 then .error .createError
    else
      match bandsFold (outTransOf gb) gb.cols.toNat gb.rows.toNat tiles gb.bands with
      | .error e => .error e
      | .ok p =>
        .ok ⟨gb.cols.toNat, gb.rows.toNat, gb.bands, outTransOf gb, gb.proj, ("GTiff"), p.2⟩

/-- The amount one source row of one tile adds to the output cell
(r, c) in band b: zero unless the row's strip covers the cell and the
strip value differs from the fixed sentinel; the raw value for band 0
and the count-weighted value for later bands.  Mirrors rowStep. -/
def rowContrib (T : GT) (colsOut rowsOut b : ℕ) (t : Tile) (cols1 : ℤ) (r1 r c : ℕ) : ℚ :=
  match stripSpec T colsOut rowsOut t cols1 r1 with
  | .error _ => 0
  | .ok (re, s, w) =>
    if r = re ∧ s ≤ c ∧ c < s + w ∧ t.data b r1 (c - s) ≠ nd then
      if b = 0 then t.data 0 r1 (c - s) else t.data b r1 (c - s) * t.data 0 r1 (c - s)
    else 0

/-- The amount one whole tile adds to the output cell (r, c) in band
b: the sum of its row contributions. -/
def tileContrib (T : GT) (colsOut rowsOut b : ℕ) (t : Tile) (r c : ℕ) : ℚ :=
  match get_bounds [t] with
  | .error _ => 0
  | .ok gb1 =>
    ((intRange gb1.rows).map (fun r1 => rowContrib T colsOut rowsOut b t gb1.cols r1 r c)).sum

/-- The accumulated count at an output cell: the sum over all tiles of
their band-0 contributions. -/
def cellCounts (T : GT) (colsOut rowsOut : ℕ) (tiles : List Tile) (r c : ℕ) : ℚ :=
  (tiles.map (fun t => tileContrib T colsOut rowsOut 0 t r c)).sum

/-- The accumulated weighted sum at an output cell for band b. -/
def cellSums (T : GT) (colsOut rowsOut b : ℕ) (tiles : List Tile) (r c : ℕ) : ℚ :=
  (tiles.map (fun t => tileContrib T colsOut rowsOut b t r c)).sum

/-- Whether source row r1 of tile t writes (successfully) onto output
cell (r, c). -/
def hitsCell (T : GT) (colsOut rowsOut : ℕ) (t : Tile) (r1 r c : ℕ) : Bool :=
  match get_bounds [t] with
  | .error _ => false
  | .ok gb1 =>
    match stripSpec T colsOut rowsOut t gb1.cols r1 with
    | .error _ => false
    | .ok q => decide (r = q.1) && decide (q.2.1 ≤ c) && decide (c < q.2.1 + q.2.2)

/-- The position inside the strip of source row r1 that lands on
output column c (meaningful when hitsCell holds). -/
def stripPos (T : GT) (colsOut rowsOut : ℕ) (t : Tile) (r1 c : ℕ) : ℕ :=
  match get_bounds [t] with
  | .error _ => 0
  | .ok gb1 =>
    match stripSpec T colsOut rowsOut t gb1.cols r1 with
    | .error _ => 0
    | .ok q => c - q.2.1

/-- Tile t covers output cell (r, c) exactly once, via its source row
r1. -/
def coverOnceB (T : GT) (colsOut rowsOut : ℕ) (t : Tile) (r c r1 : ℕ) : Bool :=
  match get_bounds [t] with
  | .error _ => false
  | .ok gb1 =>
    decide (r1 < gb1.rows.toNat) && hitsCell T colsOut rowsOut t r1 r c &&
      decide (∀ r2 < gb1.rows.toNat, r2 ≠ r1 → hitsCell T colsOut rowsOut t r2 r c = false)

/-- Tile t covers output cell (r, c) with none of its rows. -/
def noCoverB (T : GT) (colsOut rowsOut : ℕ) (t : Tile) (r c : ℕ) : Bool :=
  match get_bounds [t] with
  | .error _ => false
  | .ok gb1 => decide (∀ r1 < gb1.rows.toNat, hitsCell T colsOut rowsOut t r1 r c = false)

/-- How a tile relates to output cell (r, c) in band b: either it
covers the cell exactly once with count sample cv and band-b sample
vv, both different from the fixed sentinel, or it does not cover the
cell at all (and contributes the zero count cv = 0, vv = 0). -/
def CoverSpec (T : GT) (colsOut rowsOut b : ℕ) (t : Tile) (r c : ℕ) (cv vv : ℚ) : Prop :=
  (∃ r1, coverOnceB T colsOut rowsOut t r c r1 = true ∧
    cv = t.data 0 r1 (stripPos T colsOut rowsOut t r1 c) ∧
    vv = t.data b r1 (stripPos T colsOut rowsOut t r1 c) ∧ cv ≠ nd ∧ vv ≠ nd)
  ∨ (noCoverB T colsOut rowsOut t r c = true ∧ cv = 0 ∧ vv = 0)

/-- The error of a failed merge, if any. -/
def errOf {ε α : Type} : Except ε α → Option ε
  | .error e => some e
  | .ok _ => none

/-- A default tile (used only as the default of getLastD). -/
def tileDefault : Tile :=
  { trans := ⟨0, 1, 0, -1⟩, cols := 0, rows := 0, bands := 0, proj := "", drv := "",
    nodata := fun _ => 0, data := fun _ _ _ => 0 }

/-- A 1-by-1, two-band tile with count 2 and value 10. -/
def wTile : Tile :=
  { trans := ⟨0, 1, 1, -1⟩, cols := 1, rows := 1, bands := 2,
    proj := "P", drv := "D", nodata := fun _ => -9999,
    data := fun b _ _ => if b = 0 then 2 else 10 }

/-- Scenario tile A: 2 by 2, columns 0-1, count 2, value 10. -/
def sA : Tile :=
  { trans := ⟨0, 1, 2, -1⟩, cols := 2, rows := 2, bands := 2,
    proj := "P", drv := "D", nodata := fun _ => -9999,
    data := fun b _ _ => if b = 0 then 2 else 10 }

/-- Scenario tile B: 2 by 2, columns 1-2, count 3, value 20. -/
def sB : Tile :=
  { trans := ⟨1, 1, 2, -1⟩, cols := 2, rows := 2, bands := 2,
    proj := "P", drv := "D", nodata := fun _ => -9999,
    data := fun b _ _ => if b = 0 then 3 else 20 }

/-- A 1-by-3, single-band tile whose metadata no-data sentinel is 5
while its samples are -9999, 7 and 5. -/
def t3nod : Tile :=
  { trans := ⟨0, 1, 3, -1⟩, cols := 3, rows := 1, bands := 1,
    proj := "P", drv := "D", nodata := fun _ => 5,
    data := fun _ _ c => if c = 0 then -9999 else if c = 1 then 7 else 5 }

/-- A 1-by-2, two-band tile whose count band is 0 then 4 and whose
value band is 7 then 8. -/
def t4z : Tile :=
  { trans := ⟨0, 1, 1, -1⟩, cols := 2, rows := 1, bands := 2,
    proj := "P", drv := "D", nodata := fun _ => -9999,
    data := fun b _ c => if b = 0 then (if c = 0 then 0 else 4) else (if c = 0 then 7 else 8) }

/-- Equal-geometry 1-by-1 tiles distinguished only by projection. -/
def tP6 : Tile :=
  { trans := ⟨0, 1, 1, -1⟩, cols := 1, rows := 1, bands := 1,
    proj := "P1", drv := "D", nodata := fun _ => -9999, data := fun _ _ _ => 4 }

def tQ6 : Tile :=
  { trans := ⟨0, 1, 1, -1⟩, cols := 1, rows := 1, bands := 1,
    proj := "P2", drv := "D", nodata := fun _ => -9999, data := fun _ _ _ => 4 }

/-- A fine tile near the bottom of the mosaic: 1 by 1, pixel 1 by 1,
spanning x 0-1, y 0-1. -/
def t7fine : Tile :=
  { trans := ⟨0, 1, 1, -1⟩, cols := 1, rows := 1, bands := 1,
    proj := "P", drv := "D", nodata := fun _ => -9999, data := fun _ _ _ => 1 }

/-- A coarse tile: 3 by 3, pixel 1 by 3, spanning x 0-3, y 1-10. -/
def t7coarse : Tile :=
  { trans := ⟨0, 1, 10, -3⟩, cols := 3, rows := 3, bands := 1,
    proj := "P", drv := "D", nodata := fun _ => -9999, data := fun _ _ _ => 1 }

/-- A half-resolution tile: 1 by 1, pixel 1/2 by 1/2, at the top-left
corner of the mosaic. -/
def t8fine : Tile :=
  { trans := ⟨0, 1/2, 2, -1/2⟩, cols := 1, rows := 1, bands := 1,
    proj := "P", drv := "D", nodata := fun _ => -9999, data := fun _ _ _ => 1 }

/-- A full-resolution tile: 2 by 2, pixel 1 by 1, spanning x 0-2,
y 0-2. -/
def t8coarse : Tile :=
  { trans := ⟨0, 1, 2, -1⟩, cols := 2, rows := 2, bands := 1,
    proj := "P", drv := "D", nodata := fun _ => -9999, data := fun _ _ _ => 1 }

/-- Equal-geometry 1-by-1 tiles with different projection and driver
metadata. -/
def t10a : Tile :=
  { trans := ⟨0, 1, 1, -1⟩, cols := 1, rows := 1, bands := 1,
    proj := "PA", drv := "DA", nodata := fun _ => -9999, data := fun _ _ _ => 1 }

def t10b : Tile :=
  { trans := ⟨0, 1, 1, -1⟩, cols := 1, rows := 1, bands := 1,
    proj := "PB", drv := "HFA", nodata := fun _ => -9999, data := fun _ _ _ => 1 }

theorem exists_ok_of_isOkE {ε α : Type} {e : Except ε α} (h : isOkE e = true) :
    ∃ o, e = .ok o := by
  cases e with
  | ok o => exact ⟨o, rfl⟩
  | error _ => simp [isOkE] at h

theorem except_bind_ok {ε α β : Type} (a : α) (g : α → Except ε β) :
    ((Except.ok a : Except ε α) >>= g) = g a := rfl

theorem except_bind_error {ε α β : Type} (e : ε) (g : α → Except ε β) :
    ((Except.error e : Except ε α) >>= g) = .error e := rfl

/-- One row step changes each buffer cell by exactly its row
contribution: band 0 adds to the first (counts) buffer, later bands to
the second (sums) buffer. -/
theorem rowStep_delta {T : GT} {colsOut rowsOut b : ℕ} {t : Tile} {cols1 : ℤ}
    {st st' : Buf × Buf} {r1 : ℕ}
    (h : rowStep T colsOut rowsOut b t cols1 st r1 = .ok st') (r c : ℕ) :
    st'.1 r c = st.1 r c + (if b = 0 then rowContrib T colsOut rowsOut b t cols1 r1 r c else 0) ∧
    st'.2 r c = st.2 r c + (if b = 0 then 0 else rowContrib T colsOut rowsOut b t cols1 r1 r c) := by
  unfold rowStep at h
  unfold rowContrib
  cases hss : stripSpec T colsOut rowsOut t cols1 r1 with
  | error e => rw [hss] at h; exact absurd h (by simp)
  | ok q =>
    rw [hss] at h
    obtain ⟨re, s, w⟩ := q
    by_cases hb : b = 0
    · subst hb
      simp only [if_pos rfl] at h ⊢
      cases h
      constructor
      · by_cases hcond : r = re ∧ s ≤ c ∧ c < s + w ∧ t.data 0 r1 (c - s) ≠ nd
        · simp [hcond]
        · simp [hcond]
      · simp
    · simp only [if_neg hb] at h ⊢
      cases h
      constructor
      · simp
      · by_cases hcond : r = re ∧ s ≤ c ∧ c < s + w ∧ t.data b r1 (c - s) ≠ nd
        · simp [hcond]
        · simp [hcond]

/-- Folding an Except-valued step whose success changes each cell by a
known delta changes each cell by the sum of the deltas. -/
theorem foldlM_delta {α : Type} {f : Buf × Buf → α → Except MErr (Buf × Buf)}
    {g k : α → ℕ → ℕ → ℚ}
    (hf : ∀ st a st', f st a = .ok st' → ∀ r c,
      st'.1 r c = st.1 r c + g a r c ∧ st'.2 r c = st.2 r c + k a r c) :
    ∀ (l : List α) (st st' : Buf × Buf), List.foldlM f st l = .ok st' →
      ∀ r c, st'.1 r c = st.1 r c + (l.map (fun a => g a r c)).sum ∧
             st'.2 r c = st.2 r c + (l.map (fun a => k a r c)).sum := by
  intro l
  induction l with
  | nil =>
    intro st st' h r c
    rw [List.foldlM_nil] at h
    cases h
    simp
  | cons a l ih =>
    intro st st' h r c
    rw [List.foldlM_cons] at h
    cases h1 : f st a with
    | error e => rw [h1, except_bind_error] at h; exact absurd h (by simp)
    | ok st1 =>
      rw [h1, except_bind_ok] at h
      obtain ⟨ha1, ha2⟩ := hf st a st1 h1 r c
      obtain ⟨hb1, hb2⟩ := ih st1 st' h r c
      refine ⟨?_, ?_⟩
      · rw [hb1, ha1, List.map_cons, List.sum_cons]; ring
      · rw [hb2, ha2, List.map_cons, List.sum_cons]; ring

/-- If a fold of an Except-valued step succeeds, the step succeeded on
every list element (from some intermediate state). -/
theorem foldlM_ok_forall {α β : Type} {f : β → α → Except MErr β} :
    ∀ {l : List α} {st st' : β}, List.foldlM f st l = .ok st' →
      ∀ a ∈ l, ∃ s s', f s a = .ok s' := by
  intro l
  induction l with
  | nil => intro st st' _ a ha; exact absurd ha (by simp)
  | cons x l ih =>
    intro st st' h a ha
    rw [List.foldlM_cons] at h
    cases h1 : f st x with
    | error e => rw [h1, except_bind_error] at h; exact absurd h (by simp)
    | ok st1 =>
      rw [h1, except_bind_ok] at h
      rcases List.mem_cons.mp ha with rfl | hmem
      · exact ⟨st, st1, h1⟩
      · exact ih h a hmem

theorem sum_map_ite {α : Type} (p : Prop) [Decidable p] (f : α → ℚ) (l : List α) :
    (l.map (fun a => if p then f a else 0)).sum = if p then (l.map f).sum else 0 := by
  by_cases hp : p <;> simp [hp]

theorem sum_map_ite0 {α : Type} (p : Prop) [Decidable p] (f : α → ℚ) (l : List α) :
    (l.map (fun a => if p then 0 else f a)).sum = if p then 0 else (l.map f).sum := by
  by_cases hp : p <;> simp [hp]

theorem tileContrib_of_gb {T : GT} {colsOut rowsOut b : ℕ} {t : Tile} {gb1 : GB}
    (hgb : get_bounds [t] = .ok gb1) (r c : ℕ) :
    tileContrib T colsOut rowsOut b t r c =
      ((intRange gb1.rows).map (fun r1 => rowContrib T colsOut rowsOut b t gb1.cols r1 r c)).sum := by
  unfold tileContrib
  rw [hgb]

/-- One tile step changes each buffer cell by exactly the tile's
contribution (counts for band 0, weighted sums for later bands). -/
theorem tileStep_delta {T : GT} {colsOut rowsOut b : ℕ} {st st' : Buf × Buf} {t : Tile}
    (h : tileStep T colsOut rowsOut b st t = .ok st') (r c : ℕ) :
    st'.1 r c = st.1 r c + (if b = 0 then tileContrib T colsOut rowsOut b t r c else 0) ∧
    st'.2 r c = st.2 r c + (if b = 0 then 0 else tileContrib T colsOut rowsOut b t r c) := by
  unfold tileStep at h
  cases hgb : get_bounds [t] with
  | error e => simp only [hgb] at h; exact absurd h (by simp)
  | ok gb1 =>
    simp only [hgb] at h
    by_cases hb : t.bands ≤ b
    · rw [if_pos hb] at h; exact absurd h (by simp)
    · rw [if_neg hb] at h
      have hd := foldlM_delta
        (g := fun r1 r c => if b = 0 then rowContrib T colsOut rowsOut b t gb1.cols r1 r c else 0)
        (k := fun r1 r c => if b = 0 then 0 else rowContrib T colsOut rowsOut b t gb1.cols r1 r c)
        (fun s a s' hs => rowStep_delta hs) (intRange gb1.rows) st st' h r c
      obtain ⟨h1, h2⟩ := hd
      rw [tileContrib_of_gb hgb]
      refine ⟨?_, ?_⟩
      · rw [h1, sum_map_ite]
      · rw [h2, sum_map_ite0]

/-- One band pass changes each cell of the two buffers by the summed
per-tile contributions. -/
theorem tilesPass_delta {T : GT} {colsOut rowsOut b : ℕ} {tiles : List Tile} {st st' : Buf × Buf}
    (h : tilesPass T colsOut rowsOut b tiles st = .ok st') (r c : ℕ) :
    st'.1 r c = st.1 r c + (if b = 0 then cellCounts T colsOut rowsOut tiles r c else 0) ∧
    st'.2 r c = st.2 r c + (if b = 0 then 0 else cellSums T colsOut rowsOut b tiles r c) := by
  unfold tilesPass at h
  have hd := foldlM_delta
    (g := fun t r c => if b = 0 then tileContrib T colsOut rowsOut b t r c else 0)
    (k := fun t r c => if b = 0 then 0 else tileContrib T colsOut rowsOut b t r c)
    (fun s a s' hs => tileStep_delta hs) tiles st st' h r c
  obtain ⟨h1, h2⟩ := hd
  constructor
  · rw [h1, sum_map_ite]
    by_cases hb0 : b = 0
    · subst hb0; rfl
    · simp [hb0]
  · rw [h2, sum_map_ite0]
    by_cases hb0 : b = 0 <;> simp [hb0, cellSums]

/-- During a value-band pass (band at least 1) the counts buffer is
never written. -/
theorem tilesPass_frame {T : GT} {colsOut rowsOut b : ℕ} {tiles : List Tile} {st st' : Buf × Buf}
    (hb : b ≠ 0) (h : tilesPass T colsOut rowsOut b tiles st = .ok st') : st'.1 = st.1 := by
  funext r c
  have := (tilesPass_delta h r c).1
  simpa [hb] using this

theorem bandStep_spec0 {T : GT} {colsOut rowsOut : ℕ} {tiles : List Tile}
    {st st' : Buf × (ℕ → Buf)} (h : bandStep T colsOut rowsOut tiles st 0 = .ok st') :
    ∃ p, tilesPass T colsOut rowsOut 0 tiles (st.1, zeroBuf) = .ok p ∧
      st' = (p.1, fun b' => if b' = 0 then p.1 else st.2 b') := by
  unfold bandStep at h
  cases hp : tilesPass T colsOut rowsOut 0 tiles (st.1, zeroBuf) with
  | error e => simp only [hp] at h; exact absurd h (by simp)
  | ok p =>
    simp only [hp, if_pos rfl] at h
    cases h
    exact ⟨p, rfl, rfl⟩

theorem bandStep_spec_pos {T : GT} {colsOut rowsOut b : ℕ} {tiles : List Tile}
    {st st' : Buf × (ℕ → Buf)} (hb : b ≠ 0)
    (h : bandStep T colsOut rowsOut tiles st b = .ok st') :
    ∃ sm, tilesPass T colsOut rowsOut b tiles (st.1, zeroBuf) = .ok (st.1, sm) ∧
      st' = (st.1, fun b' => if b' = b then finalizeBand sm st.1 else st.2 b') := by
  unfold bandStep at h
  cases hp : tilesPass T colsOut rowsOut b tiles (st.1, zeroBuf) with
  | error e => simp only [hp] at h; exact absurd h (by simp)
  | ok p =>
    simp only [hp, if_neg hb] at h
    cases h
    have hfr : p.1 = st.1 := by
      have := tilesPass_frame hb hp
      simpa using this
    have hpe : (st.1, p.2) = p := by rw [← hfr]
    refine ⟨p.2, by rw [hpe], by rw [hfr]⟩

/-- Folding the band step over a duplicate-free list of nonzero band
indices leaves the counts buffer unchanged, leaves bands outside the
list unchanged, and writes each listed band as the finalized weighted
mean of its own pass. -/
theorem bandsTail_spec {T : GT} {colsOut rowsOut : ℕ} {tiles : List Tile} :
    ∀ (bs : List ℕ), (∀ b ∈ bs, b ≠ 0) → bs.Nodup →
      ∀ {st st' : Buf × (ℕ → Buf)},
        List.foldlM (bandStep T colsOut rowsOut tiles) st bs = .ok st' →
        st'.1 = st.1 ∧ (∀ b', b' ∉ bs → st'.2 b' = st.2 b') ∧
        (∀ b ∈ bs, ∃ sm, tilesPass T colsOut rowsOut b tiles (st.1, zeroBuf) = .ok (st.1, sm) ∧
          st'.2 b = finalizeBand sm st.1) := by
  intro bs
  induction bs with
  | nil =>
    intro _ _ st st' h
    rw [List.foldlM_nil] at h
    cases h
    exact ⟨rfl, fun _ _ => rfl, fun b hb => absurd hb (by simp)⟩
  | cons a l ih =>
    intro hnz hnd st st' h
    rw [List.foldlM_cons] at h
    cases h1 : bandStep T colsOut rowsOut tiles st a with
    | error e => rw [h1, except_bind_error] at h; exact absurd h (by simp)
    | ok st1 =>
      rw [h1, except_bind_ok] at h
      obtain ⟨sma, hpa, hst1⟩ := bandStep_spec_pos (hnz a (by simp)) h1
      have hnzl : ∀ b ∈ l, b ≠ 0 := fun b hb => hnz b (List.mem_cons_of_mem a hb)
      have hndl : l.Nodup := (List.nodup_cons.mp hnd).2
      have hal : a ∉ l := (List.nodup_cons.mp hnd).1
      obtain ⟨hfr, hout, hin⟩ := ih hnzl hndl h
      have hst11 : st1.1 = st.1 := by rw [hst1]
      refine ⟨by rw [hfr, hst11], ?_, ?_⟩
      · intro b' hb'
        have hb'a : b' ≠ a := fun hcon => hb' (hcon ▸ List.mem_cons_self a l)
        have hb'l : b' ∉ l := fun hcon => hb' (List.mem_cons_of_mem a hcon)
        rw [hout b' hb'l, hst1]
        simp [hb'a]
      · intro b hb
        rcases List.mem_cons.mp hb with rfl | hbl
        · refine ⟨sma, hpa, ?_⟩
          rw [hout b hal, hst1]
          simp
        · obtain ⟨sm, hsm, hval⟩ := hin b hbl
          rw [hst11] at hsm
          exact ⟨sm, hsm, by rw [hval, hst11]⟩

/-- What a successful whole band loop produces: a successful band-0
pass filling the counts, band 0 of the output being those counts, and
every later band being the finalized weighted mean of its own pass
against the unchanged counts. -/
theorem bandsFold_spec {T : GT} {colsOut rowsOut : ℕ} {tiles : List Tile} {m : ℕ}
    {pfin : Buf × (ℕ → Buf)}
    (h : bandsFold T colsOut rowsOut tiles (m + 1) = .ok pfin) :
    ∃ p0, tilesPass T colsOut rowsOut 0 tiles (zeroBuf, zeroBuf) = .ok p0 ∧
      pfin.2 0 = p0.1 ∧
      (∀ b, 1 ≤ b → b < m + 1 →
        ∃ sm, tilesPass T colsOut rowsOut b tiles (p0.1, zeroBuf) = .ok (p0.1, sm) ∧
          pfin.2 b = finalizeBand sm p0.1) := by
  unfold bandsFold at h
  rw [List.range_eq_range'] at h
  have hsplit : List.range' 0 (m + 1) = 0 :: List.range' 1 m := rfl
  rw [hsplit, List.foldlM_cons] at h
  cases h1 : bandStep T colsOut rowsOut tiles (zeroBuf, fun _ => zeroBuf) 0 with
  | error e => rw [h1, except_bind_error] at h; exact absurd h (by simp)
  | ok st1 =>
    rw [h1, except_bind_ok] at h
    obtain ⟨p0, hp0, hst1⟩ := bandStep_spec0 h1
    have hnz : ∀ b ∈ List.range' 1 m, b ≠ 0 := by
      intro b hb
      have := (List.mem_range'_1.mp hb).1
      omega
    obtain ⟨hfr, hout, hin⟩ := bandsTail_spec (List.range' 1 m) hnz (List.nodup_range' 1 m) h
    have hst11 : st1.1 = p0.1 := by rw [hst1]
    have h0notin : (0 : ℕ) ∉ List.range' 1 m := by
      intro hcon
      have := (List.mem_range'_1.mp hcon).1
      omega
    refine ⟨p0, hp0, ?_, ?_⟩
    · rw [hout 0 h0notin, hst1]
      simp
    · intro b hb1 hb2
      have hbmem : b ∈ List.range' 1 m := List.mem_range'_1.mpr ⟨hb1, by omega⟩
      obtain ⟨sm, hsm, hval⟩ := hin b hbmem
      rw [hst11] at hsm
      exact ⟨sm, hsm, by rw [hval, hst11]⟩

/-- What a successful merge produces, in terms of its parts: the
resolved bounds, the output metadata, a successful band-0 pass, and
the per-band finalization of every later band. -/
theorem mergeSpec {files : List (String × Tile)} {out : Output}
    (h : merge files = .ok out) :
    ∃ gb, get_bounds ((sortFiles files).map Prod.snd) = .ok gb ∧
      out.cols = gb.cols.toNat ∧ out.rows = gb.rows.toNat ∧ out.bands = gb.bands ∧
      out.trans = outTransOf gb ∧ out.proj = gb.proj ∧ out.drv = ("GTiff") ∧
      0 < gb.cols ∧ 0 < gb.rows ∧ 0 < gb.bands ∧
      ∃ p0, tilesPass (outTransOf gb) gb.cols.toNat gb.rows.toNat 0
          ((sortFiles files).map Prod.snd) (zeroBuf, zeroBuf) = .ok p0 ∧
        out.data 0 = p0.1 ∧
        (∀ b, 1 ≤ b → b < gb.bands →
          ∃ sm, tilesPass (outTransOf gb) gb.cols.toNat gb.rows.toNat b
              ((sortFiles files).map Prod.snd) (p0.1, zeroBuf) = .ok (p0.1, sm) ∧
            out.data b = finalizeBand sm p0.1) := by
  unfold merge at h
  cases hgb : get_bounds ((sortFiles files).map Prod.snd) with
  | error e => simp only [hgb] at h; exact absurd h (by simp)
  | ok gb =>
    simp only [hgb] at h
    by_cases hbad : gb.cols ≤ 0 ∨ gb.rows ≤ 0 ∨ gb.bands = 0
    · rw [if_pos hbad] at h; exact absurd h (by simp)
    · rw [if_neg hbad] at h
      push_neg at hbad
      obtain ⟨hc0, hr0, hb0⟩ := hbad
      cases hbf : bandsFold (outTransOf gb) gb.cols.toNat gb.rows.toNat
          ((sortFiles files).map Prod.snd) gb.bands with
      | error e => rw [hbf] at h; exact absurd h (by simp)
      | ok p =>
        rw [hbf] at h
        cases h
        obtain ⟨m, hm⟩ := Nat.exists_eq_succ_of_ne_zero hb0
        rw [hm] at hbf
        obtain ⟨p0, hp0, hband0, hbands⟩ := bandsFold_spec hbf
        refine ⟨gb, rfl, rfl, rfl, rfl, rfl, rfl, rfl, by omega, by omega, by omega,
          p0, hp0, hband0, ?_⟩
        intro b hb1 hb2
        exact hbands b hb1 (by omega)

theorem rowContrib_err {T : GT} {colsOut rowsOut b : ℕ} {t : Tile} {cols1 : ℤ} {r1 r c : ℕ}
    {e : MErr} (hss : stripSpec T colsOut rowsOut t cols1 r1 = .error e) :
    rowContrib T colsOut rowsOut b t cols1 r1 r c = 0 := by
  unfold rowContrib; rw [hss]

theorem rowContrib_ok {T : GT} {colsOut rowsOut b : ℕ} {t : Tile} {cols1 : ℤ} {r1 r c : ℕ}
    {re s w : ℕ} (hss : stripSpec T colsOut rowsOut t cols1 r1 = .ok (re, s, w)) :
    rowContrib T colsOut rowsOut b t cols1 r1 r c =
      if r = re ∧ s ≤ c ∧ c < s + w ∧ t.data b r1 (c - s) ≠ nd then
        if b = 0 then t.data 0 r1 (c - s) else t.data b r1 (c - s) * t.data 0 r1 (c - s)
      else 0 := by
  unfold rowContrib; rw [hss]

theorem stripPos_gb {T : GT} {colsOut rowsOut : ℕ} {t : Tile} {gb1 : GB} {r1 c : ℕ}
    (hgb : get_bounds [t] = .ok gb1) :
    stripPos T colsOut rowsOut t r1 c =
      match stripSpec T colsOut rowsOut t gb1.cols r1 with
      | .error _ => 0
      | .ok q => c - q.2.1 := by
  unfold stripPos; rw [hgb]

theorem stripPos_ok {T : GT} {colsOut rowsOut : ℕ} {t : Tile} {gb1 : GB} {r1 c : ℕ}
    {re s w : ℕ} (hgb : get_bounds [t] = .ok gb1)
    (hss : stripSpec T colsOut rowsOut t gb1.cols r1 = .ok (re, s, w)) :
    stripPos T colsOut rowsOut t r1 c = c - s := by
  rw [stripPos_gb hgb, hss]

theorem hitsCell_gb {T : GT} {colsOut rowsOut : ℕ} {t : Tile} {gb1 : GB} {r1 r c : ℕ}
    (hgb : get_bounds [t] = .ok gb1) :
    hitsCell T colsOut rowsOut t r1 r c =
      match stripSpec T colsOut rowsOut t gb1.cols r1 with
      | .error _ => false
      | .ok q => decide (r = q.1) && decide (q.2.1 ≤ c) && decide (c < q.2.1 + q.2.2) := by
  unfold hitsCell; rw [hgb]

theorem hitsCell_ok {T : GT} {colsOut rowsOut : ℕ} {t : Tile} {gb1 : GB} {r1 r c : ℕ}
    {re s w : ℕ} (hgb : get_bounds [t] = .ok gb1)
    (hss : stripSpec T colsOut rowsOut t gb1.cols r1 = .ok (re, s, w)) :
    hitsCell T colsOut rowsOut t r1 r c =
      (decide (r = re) && decide (s ≤ c) && decide (c < s + w)) := by
  rw [hitsCell_gb hgb, hss]

theorem hitsCell_err {T : GT} {colsOut rowsOut : ℕ} {t : Tile} {gb1 : GB} {r1 r c : ℕ}
    {e : MErr} (hgb : get_bounds [t] = .ok gb1)
    (hss : stripSpec T colsOut rowsOut t gb1.cols r1 = .error e) :
    hitsCell T colsOut rowsOut t r1 r c = false := by
  rw [hitsCell_gb hgb, hss]

theorem rowContrib_not_hit {T : GT} {colsOut rowsOut : ℕ} {t : Tile} {gb1 : GB} {r1 r c b : ℕ}
    (hgb : get_bounds [t] = .ok gb1)
    (hh : hitsCell T colsOut rowsOut t r1 r c = false) :
    rowContrib T colsOut rowsOut b t gb1.cols r1 r c = 0 := by
  cases hss : stripSpec T colsOut rowsOut t gb1.cols r1 with
  | error e => exact rowContrib_err hss
  | ok q =>
    obtain ⟨re, s, w⟩ := q
    rw [rowContrib_ok hss]
    rw [hitsCell_ok hgb hss] at hh
    simp only [Bool.and_eq_false_iff, decide_eq_false_iff_not] at hh
    rw [if_neg]
    rintro ⟨h1, h2, h3, _⟩
    rcases hh with (hh | hh) | hh
    · exact hh h1
    · exact hh h2
    · exact hh h3

theorem rowContrib_hit {T : GT} {colsOut rowsOut : ℕ} {t : Tile} {gb1 : GB} {r1 r c b : ℕ}
    (hgb : get_bounds [t] = .ok gb1)
    (hh : hitsCell T colsOut rowsOut t r1 r c = true) :
    rowContrib T colsOut rowsOut b t gb1.cols r1 r c =
      (if t.data b r1 (stripPos T colsOut rowsOut t r1 c) ≠ nd then
        (if b = 0 then t.data 0 r1 (stripPos T colsOut rowsOut t r1 c)
         else t.data b r1 (stripPos T colsOut rowsOut t r1 c) *
           t.data 0 r1 (stripPos T colsOut rowsOut t r1 c))
       else 0) := by
  cases hss : stripSpec T colsOut rowsOut t gb1.cols r1 with
  | error e => rw [hitsCell_err hgb hss] at hh; exact absurd hh (by simp)
  | ok q =>
    obtain ⟨re, s, w⟩ := q
    rw [hitsCell_ok hgb hss] at hh
    simp only [Bool.and_eq_true, decide_eq_true_eq] at hh
    obtain ⟨⟨h1, h2⟩, h3⟩ := hh
    rw [rowContrib_ok hss, stripPos_ok hgb hss]
    by_cases hmask : t.data b r1 (c - s) ≠ nd
    · rw [if_pos ⟨h1, h2, h3, hmask⟩, if_pos hmask]
    · rw [if_neg (fun hcon => hmask hcon.2.2.2), if_neg hmask]

theorem sum_map_range_single {n r0 : ℕ} (f : ℕ → ℚ) (h0 : r0 < n)
    (hz : ∀ i, i < n → i ≠ r0 → f i = 0) : ((List.range n).map f).sum = f r0 := by
  induction n with
  | zero => omega
  | succ m ih =>
    rw [List.range_succ, List.map_append, List.sum_append]
    by_cases hr : r0 = m
    · subst hr
      have hzz : ((List.range r0).map f).sum = 0 := by
        apply List.sum_eq_zero
        intro x hx
        simp only [List.mem_map] at hx
        obtain ⟨i, hi, rfl⟩ := hx
        have hilt := List.mem_range.mp hi
        exact hz i (by omega) (by omega)
      simp [hzz]
    · have hr0m : r0 < m := by omega
      rw [ih hr0m (fun i hi hne => hz i (by omega) hne)]
      have hfm : f m = 0 := hz m (by omega) (fun hcon => hr hcon.symm)
      simp [hfm]

/-- A tile covering the cell exactly once contributes exactly its
(masked) sample there. -/
theorem tileContrib_coverOnce {T : GT} {colsOut rowsOut b : ℕ} {t : Tile} {r c r1 : ℕ}
    (hco : coverOnceB T colsOut rowsOut t r c r1 = true) :
    tileContrib T colsOut rowsOut b t r c =
      (if t.data b r1 (stripPos T colsOut rowsOut t r1 c) ≠ nd then
        (if b = 0 then t.data 0 r1 (stripPos T colsOut rowsOut t r1 c)
         else t.data b r1 (stripPos T colsOut rowsOut t r1 c) *
           t.data 0 r1 (stripPos T colsOut rowsOut t r1 c))
       else 0) := by
  have hco' := hco
  unfold coverOnceB at hco'
  cases hgb : get_bounds [t] with
  | error e => rw [hgb] at hco'; exact absurd hco' (by simp)
  | ok gb1 =>
    rw [hgb] at hco'
    simp only [Bool.and_eq_true, decide_eq_true_eq] at hco'
    obtain ⟨⟨hlt, hhit⟩, hothers⟩ := hco'
    rw [tileContrib_of_gb hgb]
    unfold intRange
    rw [sum_map_range_single _ hlt]
    · exact rowContrib_hit hgb hhit
    · intro i hi hne
      exact rowContrib_not_hit hgb (hothers i hi hne)

/-- A tile covering the cell with none of its rows contributes
nothing. -/
theorem tileContrib_noCover {T : GT} {colsOut rowsOut b : ℕ} {t : Tile} {r c : ℕ}
    (hnc : noCoverB T colsOut rowsOut t r c = true) :
    tileContrib T colsOut rowsOut b t r c = 0 := by
  have hnc' := hnc
  unfold noCoverB at hnc'
  cases hgb : get_bounds [t] with
  | error e => rw [hgb] at hnc'; exact absurd hnc' (by simp)
  | ok gb1 =>
    rw [hgb] at hnc'
    simp only [decide_eq_true_eq] at hnc'
    rw [tileContrib_of_gb hgb]
    apply List.sum_eq_zero
    intro x hx
    simp only [List.mem_map] at hx
    obtain ⟨r1, hr1, rfl⟩ := hx
    unfold intRange at hr1
    exact rowContrib_not_hit hgb (hnc' r1 (List.mem_range.mp hr1))

/-- Under a cover specification, a tile's band-0 contribution is its
count sample. -/
theorem tileContrib_cover_counts {T : GT} {colsOut rowsOut b : ℕ} {t : Tile} {r c : ℕ}
    {cv vv : ℚ} (hcs : CoverSpec T colsOut rowsOut b t r c cv vv) :
    tileContrib T colsOut rowsOut 0 t r c = cv := by
  rcases hcs with ⟨r1, hco, hcv, hvv, hcnd, hvnd⟩ | ⟨hnc, hcv, hvv⟩
  · rw [tileContrib_coverOnce hco, ← hcv]
    rw [if_pos hcnd, if_pos rfl]
  · rw [tileContrib_noCover hnc, hcv]

/-- Under a cover specification, a tile's band-b contribution is its
value sample weighted by its count sample. -/
theorem tileContrib_cover_sums {T : GT} {colsOut rowsOut b : ℕ} {t : Tile} {r c : ℕ}
    {cv vv : ℚ} (hb : b ≠ 0) (hcs : CoverSpec T colsOut rowsOut b t r c cv vv) :
    tileContrib T colsOut rowsOut b t r c = vv * cv := by
  rcases hcs with ⟨r1, hco, hcv, hvv, hcnd, hvnd⟩ | ⟨hnc, hcv, hvv⟩
  · rw [tileContrib_coverOnce hco, ← hcv, ← hvv]
    rw [if_pos hvnd, if_neg hb]
  · rw [tileContrib_noCover hnc, hcv, hvv]
    ring

theorem cellCounts_of_cover {T : GT} {colsOut rowsOut b : ℕ} {tiles : List Tile} {r c : ℕ}
    {cf vf : Tile → ℚ}
    (h : ∀ t ∈ tiles, CoverSpec T colsOut rowsOut b t r c (cf t) (vf t)) :
    cellCounts T colsOut rowsOut tiles r c = (tiles.map cf).sum := by
  unfold cellCounts
  induction tiles with
  | nil => rfl
  | cons a l ih =>
    rw [List.map_cons, List.sum_cons, List.map_cons, List.sum_cons]
    rw [tileContrib_cover_counts (h a (by simp))]
    rw [ih (fun t ht => h t (List.mem_cons_of_mem a ht))]

theorem cellSums_of_cover {T : GT} {colsOut rowsOut b : ℕ} {tiles : List Tile} {r c : ℕ}
    {cf vf : Tile → ℚ} (hb : b ≠ 0)
    (h : ∀ t ∈ tiles, CoverSpec T colsOut rowsOut b t r c (cf t) (vf t)) :
    cellSums T colsOut rowsOut b tiles r c = (tiles.map (fun t => vf t * cf t)).sum := by
  unfold cellSums
  induction tiles with
  | nil => rfl
  | cons a l ih =>
    rw [List.map_cons, List.sum_cons, List.map_cons, List.sum_cons]
    rw [tileContrib_cover_sums hb (h a (by simp))]
    rw [ih (fun t ht => h t (List.mem_cons_of_mem a ht))]

theorem ratFloor_eq_floor (q : ℚ) : ratFloor q = ⌊q⌋ := by
  unfold ratFloor
  rw [Rat.floor_def]
  exact Int.fdiv_eq_ediv _ (by positivity)

theorem pytrunc_eq_floor {q : ℚ} (h : 0 ≤ q) : pytrunc q = ⌊q⌋ := by
  unfold pytrunc
  rw [if_pos h]
  exact ratFloor_eq_floor q

theorem foldl_min_facts (g : Tile → ℚ) (l : List Tile) (x : ℚ) :
    l.foldl (fun a t => min a (g t)) x ≤ x ∧
    (∀ t ∈ l, l.foldl (fun a t => min a (g t)) x ≤ g t) ∧
    (l.foldl (fun a t => min a (g t)) x = x ∨
      ∃ t ∈ l, l.foldl (fun a t => min a (g t)) x = g t) := by
  induction l generalizing x with
  | nil => exact ⟨le_refl x, fun t ht => absurd ht (by simp), Or.inl rfl⟩
  | cons a l ih =>
    obtain ⟨h1, h2, h3⟩ := ih (min x (g a))
    rw [List.foldl_cons]
    refine ⟨h1.trans (min_le_left x (g a)), ?_, ?_⟩
    · intro t ht
      rcases List.mem_cons.mp ht with rfl | hmem
      · exact h1.trans (min_le_right x (g t))
      · exact h2 t hmem
    · rcases h3 with heq | ⟨t, ht, heq⟩
      · rcases min_choice x (g a) with hm | hm
        · exact Or.inl (heq.trans hm)
        · exact Or.inr ⟨a, by simp, heq.trans hm⟩
      · exact Or.inr ⟨t, List.mem_cons_of_mem a ht, heq⟩

theorem foldl_max_facts (g : Tile → ℚ) (l : List Tile) (x : ℚ) :
    x ≤ l.foldl (fun a t => max a (g t)) x ∧
    (∀ t ∈ l, g t ≤ l.foldl (fun a t => max a (g t)) x) ∧
    (l.foldl (fun a t => max a (g t)) x = x ∨
      ∃ t ∈ l, l.foldl (fun a t => max a (g t)) x = g t) := by
  induction l generalizing x with
  | nil => exact ⟨le_refl x, fun t ht => absurd ht (by simp), Or.inl rfl⟩
  | cons a l ih =>
    obtain ⟨h1, h2, h3⟩ := ih (max x (g a))
    rw [List.foldl_cons]
    refine ⟨(le_max_left x (g a)).trans h1, ?_, ?_⟩
    · intro t ht
      rcases List.mem_cons.mp ht with rfl | hmem
      · exact (le_max_right x (g t)).trans h1
      · exact h2 t hmem
    · rcases h3 with heq | ⟨t, ht, heq⟩
      · rcases max_choice x (g a) with hm | hm
        · exact Or.inl (heq.trans hm)
        · exact Or.inr ⟨a, by simp, heq.trans hm⟩
      · exact Or.inr ⟨t, List.mem_cons_of_mem a ht, heq⟩

theorem boundsFold_comp (rest : List Tile) (b : ℚ × ℚ × ℚ × ℚ) :
    rest.foldl boundsStep b =
      (rest.foldl (fun a t => min a (min t.trans.x0 (tileX2 t))) b.1,
       rest.foldl (fun a t => min a (min t.trans.y0 (tileY2 t))) b.2.1,
       rest.foldl (fun a t => max a (max t.trans.x0 (tileX2 t))) b.2.2.1,
       rest.foldl (fun a t => max a (max t.trans.y0 (tileY2 t))) b.2.2.2) := by
  induction rest generalizing b with
  | nil => rfl
  | cons a l ih =>
    simp only [List.foldl_cons]
    exact ih (boundsStep b a)

theorem get_bounds_cons (f : Tile) (rest : List Tile)
    (h : ¬((rest.getLastD f).trans.resx = 0 ∨ (rest.getLastD f).trans.resy = 0)) :
    get_bounds (f :: rest) =
      .ok ⟨(rest.foldl boundsStep (tileBox f)).1,
        (rest.foldl boundsStep (tileBox f)).2.1,
        (rest.foldl boundsStep (tileBox f)).2.2.1,
        (rest.foldl boundsStep (tileBox f)).2.2.2,
        (rest.getLastD f).trans.resx, (rest.getLastD f).trans.resy,
        pytrunc (((rest.foldl boundsStep (tileBox f)).2.2.1 -
          (rest.foldl boundsStep (tileBox f)).1) / |(rest.getLastD f).trans.resx|),
        pytrunc (((rest.foldl boundsStep (tileBox f)).2.2.2 -
          (rest.foldl boundsStep (tileBox f)).2.1) / |(rest.getLastD f).trans.resy|),
        (rest.getLastD f).drv, (rest.getLastD f).bands, (rest.getLastD f).proj⟩ := by
  show (if (rest.getLastD f).trans.resx = 0 ∨ (rest.getLastD f).trans.resy = 0
    then Except.error MErr.zeroDivision else _) = _
  rw [if_neg h]

theorem get_bounds_last_meta {f : Tile} {rest : List Tile} {gb : GB}
    (hgb : get_bounds (f :: rest) = .ok gb) :
    gb.resx = (rest.getLastD f).trans.resx ∧ gb.resy = (rest.getLastD f).trans.resy ∧
    gb.drv = (rest.getLastD f).drv ∧ gb.bands = (rest.getLastD f).bands ∧
    gb.proj = (rest.getLastD f).proj := by
  by_cases hz : (rest.getLastD f).trans.resx = 0 ∨ (rest.getLastD f).trans.resy = 0
  · have hbad : get_bounds (f :: rest) = .error .zeroDivision := by
      show (if (rest.getLastD f).trans.resx = 0 ∨ (rest.getLastD f).trans.resy = 0
        then Except.error MErr.zeroDivision else _) = _
      rw [if_pos hz]
    rw [hbad] at hgb
    exact absurd hgb (by simp)
  · rw [get_bounds_cons f rest hz] at hgb
    cases hgb
    exact ⟨rfl, rfl, rfl, rfl, rfl⟩

/-- C5: for every nonempty collection of input tiles whose last tile
has nonzero pixel sizes (the GridTransform invariant of the spec),
get_bounds returns the union bounding box of all tiles' spatial
extents: the componentwise minimum of lower corners and maximum of
upper corners over all tiles (each bound attained by some tile), and
output pixel dimensions columns = floor((maxX - minX) / abs pixelWidth)
and rows = floor((maxY - minY) / abs pixelHeight). -/
theorem get_bounds_union_bbox (f : Tile) (rest : List Tile)
    (hx : (rest.getLastD f).trans.resx ≠ 0) (hy : (rest.getLastD f).trans.resy ≠ 0) :
    ∃ gb, get_bounds (f :: rest) = .ok gb ∧
      (∀ t ∈ f :: rest,
        gb.b0 ≤ min t.trans.x0 (tileX2 t) ∧ gb.b1 ≤ min t.trans.y0 (tileY2 t) ∧
        max t.trans.x0 (tileX2 t) ≤ gb.b2 ∧ max t.trans.y0 (tileY2 t) ≤ gb.b3) ∧
      (∃ t ∈ f :: rest, gb.b0 = min t.trans.x0 (tileX2 t)) ∧
      (∃ t ∈ f :: rest, gb.b1 = min t.trans.y0 (tileY2 t)) ∧
      (∃ t ∈ f :: rest, gb.b2 = max t.trans.x0 (tileX2 t)) ∧
      (∃ t ∈ f :: rest, gb.b3 = max t.trans.y0 (tileY2 t)) ∧
      gb.cols = ⌊(gb.b2 - gb.b0) / |gb.resx|⌋ ∧
      gb.rows = ⌊(gb.b3 - gb.b1) / |gb.resy|⌋ := by
  have hz : ¬((rest.getLastD f).trans.resx = 0 ∨ (rest.getLastD f).trans.resy = 0) := by
    tauto
  have hb1 : (rest.foldl boundsStep (tileBox f)).1 =
      rest.foldl (fun a t => min a (min t.trans.x0 (tileX2 t))) (min f.trans.x0 (tileX2 f)) := by
    rw [boundsFold_comp]; rfl
  have hb2 : (rest.foldl boundsStep (tileBox f)).2.1 =
      rest.foldl (fun a t => min a (min t.trans.y0 (tileY2 t))) (min f.trans.y0 (tileY2 f)) := by
    rw [boundsFold_comp]; rfl
  have hb3 : (rest.foldl boundsStep (tileBox f)).2.2.1 =
      rest.foldl (fun a t => max a (max t.trans.x0 (tileX2 t))) (max f.trans.x0 (tileX2 f)) := by
    rw [boundsFold_comp]; rfl
  have hb4 : (rest.foldl boundsStep (tileBox f)).2.2.2 =
      rest.foldl (fun a t => max a (max t.trans.y0 (tileY2 t))) (max f.trans.y0 (tileY2 f)) := by
    rw [boundsFold_comp]; rfl
  obtain ⟨hm1a, hm1b, hm1c⟩ :=
    foldl_min_facts (fun t => min t.trans.x0 (tileX2 t)) rest (min f.trans.x0 (tileX2 f))
  obtain ⟨hm2a, hm2b, hm2c⟩ :=
    foldl_min_facts (fun t => min t.trans.y0 (tileY2 t)) rest (min f.trans.y0 (tileY2 f))
  obtain ⟨hm3a, hm3b, hm3c⟩ :=
    foldl_max_facts (fun t => max t.trans.x0 (tileX2 t)) rest (max f.trans.x0 (tileX2 f))
  obtain ⟨hm4a, hm4b, hm4c⟩ :=
    foldl_max_facts (fun t => max t.trans.y0 (tileY2 t)) rest (max f.trans.y0 (tileY2 f))
  refine ⟨_, get_bounds_cons f rest hz, ?_, ?_, ?_, ?_, ?_, ?_, ?_⟩
  · intro t ht
    rcases List.mem_cons.mp ht with rfl | hmem
    · exact ⟨hb1 ▸ hm1a, hb2 ▸ hm2a, hb3 ▸ hm3a, hb4 ▸ hm4a⟩
    · exact ⟨hb1 ▸ hm1b t hmem, hb2 ▸ hm2b t hmem, hb3 ▸ hm3b t hmem, hb4 ▸ hm4b t hmem⟩
  · rcases hm1c with heq | ⟨t, ht, heq⟩
    · exact ⟨f, by simp, hb1 ▸ heq⟩
    · exact ⟨t, List.mem_cons_of_mem f ht, hb1 ▸ heq⟩
  · rcases hm2c with heq | ⟨t, ht, heq⟩
    · exact ⟨f, by simp, hb2 ▸ heq⟩
    · exact ⟨t, List.mem_cons_of_mem f ht, hb2 ▸ heq⟩
  · rcases hm3c with heq | ⟨t, ht, heq⟩
    · exact ⟨f, by simp, hb3 ▸ heq⟩
    · exact ⟨t, List.mem_cons_of_mem f ht, hb3 ▸ heq⟩
  · rcases hm4c with heq | ⟨t, ht, heq⟩
    · exact ⟨f, by simp, hb4 ▸ heq⟩
    · exact ⟨t, List.mem_cons_of_mem f ht, hb4 ▸ heq⟩
  · apply pytrunc_eq_floor
    have hxle : (rest.foldl boundsStep (tileBox f)).1 ≤ (rest.foldl boundsStep (tileBox f)).2.2.1 := by
      calc (rest.foldl boundsStep (tileBox f)).1
          ≤ min f.trans.x0 (tileX2 f) := hb1 ▸ hm1a
        _ ≤ max f.trans.x0 (tileX2 f) := (min_le_left _ _).trans (le_max_left _ _)
        _ ≤ (rest.foldl boundsStep (tileBox f)).2.2.1 := hb3 ▸ hm3a
    have habs : (0:ℚ) < |(rest.getLastD f).trans.resx| := abs_pos.mpr hx
    exact div_nonneg (by linarith) (le_of_lt habs)
  · apply pytrunc_eq_floor
    have hyle : (rest.foldl boundsStep (tileBox f)).2.1 ≤ (rest.foldl boundsStep (tileBox f)).2.2.2 := by
      calc (rest.foldl boundsStep (tileBox f)).2.1
          ≤ min f.trans.y0 (tileY2 f) := hb2 ▸ hm2a
        _ ≤ max f.trans.y0 (tileY2 f) := (min_le_left _ _).trans (le_max_left _ _)
        _ ≤ (rest.foldl boundsStep (tileBox f)).2.2.2 := hb4 ▸ hm4a
    have habs : (0:ℚ) < |(rest.getLastD f).trans.resy| := abs_pos.mpr hy
    exact div_nonneg (by linarith) (le_of_lt habs)

/-- C4: for a successful merge, at every in-range output cell and
every value band b with 1 ≤ b < bands, a zero accumulated count (the
band-0 output at that cell) forces the fixed no-data sentinel -9999 in
band b, and a positive accumulated count gives exactly the accumulated
weighted sums divided by the accumulated counts. -/
theorem nodata_propagation (files : List (String × Tile)) (out : Output) (b r c : ℕ)
    (hm : merge files = .ok out) (hb1 : 1 ≤ b) (hb2 : b < out.bands)
    (_hr : r < out.rows) (_hc : c < out.cols) :
    (out.data 0 r c = 0 → out.data b r c = nd) ∧
    (0 < out.data 0 r c → out.data b r c =
      cellSums out.trans out.cols out.rows b ((sortFiles files).map Prod.snd) r c /
        out.data 0 r c) := by
  obtain ⟨gb, hgb, hcols, hrows, hbands, htrans, hproj, hdrv, hc0, hr0, hbn0, p0, hp0, hd0, hbs⟩ :=
    mergeSpec hm
  obtain ⟨sm, hsm, hfin⟩ := hbs b hb1 (hbands ▸ hb2)
  have hsmrc : sm r c = cellSums (outTransOf gb) gb.cols.toNat gb.rows.toNat b
      ((sortFiles files).map Prod.snd) r c := by
    have hdel := (tilesPass_delta hsm r c).2
    simpa [show ¬(b = 0) by omega, zeroBuf] using hdel
  rw [hfin]
  unfold finalizeBand
  rw [hd0]
  constructor
  · intro h0
    rw [if_neg (by rw [h0]; exact lt_irrefl 0), if_pos h0]
  · intro h0
    rw [if_pos h0, hsmrc, htrans, hcols, hrows]

/-- C9: within one merge pass, a value-band pass (band index at least
1) over any tile list never writes the counts buffer: the pass returns
the counts component unchanged, so every later band reads the counts
filled during band 0's pass as the shared weighting denominator (only
the sums buffer is re-zeroed and mutated per band). -/
theorem counts_immutable_after_band0 (T : GT) (colsOut rowsOut b : ℕ) (tiles : List Tile)
    (st st' : Buf × Buf) (hb : 1 ≤ b)
    (h : tilesPass T colsOut rowsOut b tiles st = .ok st') : st'.1 = st.1 :=
  tilesPass_frame (by omega) h

/-- C2: the output count layer (band 0) at a cell equals the sum, over
exactly the tiles covering that cell, of their count samples: each
tile of the sorted input list contributes its count once if it covers
the cell (no tile counted twice), and nothing if it does not cover it
(none omitted). -/
theorem count_sum_correct (files : List (String × Tile)) (out : Output) (r c : ℕ)
    (cf : Tile → ℚ) (hm : merge files = .ok out) (_hr : r < out.rows) (_hc : c < out.cols)
    (hcover : ∀ t ∈ (sortFiles files).map Prod.snd,
      CoverSpec out.trans out.cols out.rows 0 t r c (cf t) (cf t)) :
    out.data 0 r c = (((sortFiles files).map Prod.snd).map cf).sum := by
  obtain ⟨gb, hgb, hcols, hrows, hbands, htrans, hproj, hdrv, hc0, hr0, hbn0, p0, hp0, hd0, hbs⟩ :=
    mergeSpec hm
  rw [htrans, hcols, hrows] at hcover
  rw [hd0]
  have hp := (tilesPass_delta hp0 r c).1
  simp only [if_pos rfl, if_true, zeroBuf] at hp
  rw [hp, cellCounts_of_cover hcover, zero_add]

/-- C1: for an output cell covered (each exactly once, with counts and
values that are not no-data) by the input tiles, the finalized value
band b (any band index 1 ≤ b < bands) equals the weighted average
sum(vi * ci) / sum(ci) of the tiles' value samples weighted by their
count samples, whenever the total count is positive. -/
theorem weighted_mean_correct (files : List (String × Tile)) (out : Output) (b r c : ℕ)
    (cf vf : Tile → ℚ) (hm : merge files = .ok out) (hb1 : 1 ≤ b) (hb2 : b < out.bands)
    (_hr : r < out.rows) (_hc : c < out.cols)
    (hcover : ∀ t ∈ (sortFiles files).map Prod.snd,
      CoverSpec out.trans out.cols out.rows b t r c (cf t) (vf t))
    (hpos : 0 < (((sortFiles files).map Prod.snd).map cf).sum) :
    out.data b r c = (((sortFiles files).map Prod.snd).map (fun t => vf t * cf t)).sum /
      (((sortFiles files).map Prod.snd).map cf).sum := by
  obtain ⟨gb, hgb, hcols, hrows, hbands, htrans, hproj, hdrv, hc0, hr0, hbn0, p0, hp0, hd0, hbs⟩ :=
    mergeSpec hm
  rw [htrans, hcols, hrows] at hcover
  obtain ⟨sm, hsm, hfin⟩ := hbs b hb1 (hbands ▸ hb2)
  have hcnt : p0.1 r c = (((sortFiles files).map Prod.snd).map cf).sum := by
    have hp := (tilesPass_delta hp0 r c).1
    simp only [if_pos rfl, if_true, zeroBuf] at hp
    rw [hp, cellCounts_of_cover hcover, zero_add]
  have hsmrc : sm r c = (((sortFiles files).map Prod.snd).map (fun t => vf t * cf t)).sum := by
    have hdel := (tilesPass_delta hsm r c).2
    simp only [if_neg (show ¬(b = 0) by omega), zeroBuf] at hdel
    rw [hdel, cellSums_of_cover (show b ≠ 0 by omega) hcover, zero_add]
  rw [hfin]
  unfold finalizeBand
  rw [hcnt, hsmrc, if_pos hpos]

theorem strLtB_asymm : ∀ x y : List Char, strLtB x y = true → strLtB y x = false := by
  intro x
  induction x with
  | nil =>
    intro y h
    cases y with
    | nil => simp [strLtB] at h
    | cons b bs => simp [strLtB]
  | cons a as ih =>
    intro y h
    cases y with
    | nil => simp [strLtB] at h
    | cons b bs =>
      simp only [strLtB] at h ⊢
      by_cases hab : a < b
      · rw [if_neg (not_lt.mpr (le_of_lt hab)), if_pos hab]
      · rw [if_neg hab] at h
        by_cases hba : b < a
        · rw [if_pos hba] at h
          exact absurd h (by simp)
        · rw [if_neg hba] at h
          rw [if_neg hba, if_neg hab]
          exact ih bs h

theorem strLtB_conn : ∀ x y : List Char, strLtB x y = false → strLtB y x = false → x = y := by
  intro x
  induction x with
  | nil =>
    intro y h1 _
    cases y with
    | nil => rfl
    | cons b bs => simp [strLtB] at h1
  | cons a as ih =>
    intro y h1 h2
    cases y with
    | nil => simp [strLtB] at h2
    | cons b bs =>
      simp only [strLtB] at h1 h2
      by_cases hab : a < b
      · rw [if_pos hab] at h1
        exact absurd h1 (by simp)
      · by_cases hba : b < a
        · rw [if_pos hba] at h2
          exact absurd h2 (by simp)
        · rw [if_neg hab, if_neg hba] at h1
          rw [if_neg hba, if_neg hab] at h2
          rw [le_antisymm (not_lt.mp hba) (not_lt.mp hab), ih bs h1 h2]

theorem strLtB_le_trans : ∀ (x y z : List Char), strLtB y x = false → strLtB z y = false →
    strLtB z x = false := by
  intro x
  induction x with
  | nil =>
    intro y z _ _
    cases z with
    | nil => rfl
    | cons c cs => rfl
  | cons a as ih =>
    intro y z h1 h2
    cases y with
    | nil => simp [strLtB] at h1
    | cons b bs =>
      cases z with
      | nil => simp [strLtB] at h2
      | cons c cs =>
        simp only [strLtB] at h1 h2 ⊢
        by_cases hba : b < a
        · rw [if_pos hba] at h1
          exact absurd h1 (by simp)
        · rw [if_neg hba] at h1
          by_cases hcb : c < b
          · rw [if_pos hcb] at h2
            exact absurd h2 (by simp)
          · rw [if_neg hcb] at h2
            have hab : a ≤ b := not_lt.mp hba
            have hbc : b ≤ c := not_lt.mp hcb
            rw [if_neg (not_lt.mpr (hab.trans hbc))]
            by_cases hac : a < c
            · rw [if_pos hac]
            · rw [if_neg hac]
              have hca : c ≤ a := not_lt.mp hac
              have hab2 : a = b := le_antisymm hab (hbc.trans hca)
              have hbc2 : b = c := le_antisymm hbc (hca.trans hab)
              rw [if_neg (by rw [hab2]; exact lt_irrefl b)] at h1
              rw [if_neg (by rw [hbc2]; exact lt_irrefl c)] at h2
              exact ih bs cs h1 h2

theorem insertFile_perm (a : String × Tile) :
    ∀ l : List (String × Tile), (insertFile a l).Perm (a :: l) := by
  intro l
  induction l with
  | nil => exact List.Perm.refl _
  | cons p l ih =>
    unfold insertFile
    by_cases hlt : strLtB (basename p.1) (basename a.1) = true
    · rw [if_pos hlt]
      exact (List.Perm.cons p ih).trans (List.Perm.swap a p l)
    · rw [if_neg hlt]

theorem sortFiles_perm : ∀ l : List (String × Tile), (sortFiles l).Perm l := by
  intro l
  induction l with
  | nil => exact List.Perm.refl _
  | cons a l ih => exact (insertFile_perm a (sortFiles l)).trans (List.Perm.cons a ih)

theorem insertFile_sorted (a : String × Tile) :
    ∀ l : List (String × Tile),
      List.Pairwise (fun p q => strLtB (basename q.1) (basename p.1) = false) l →
      List.Pairwise (fun p q => strLtB (basename q.1) (basename p.1) = false)
        (insertFile a l) := by
  intro l
  induction l with
  | nil => exact fun _ => List.pairwise_singleton _ a
  | cons p l ih =>
    intro hs
    obtain ⟨hhead, htail⟩ := List.pairwise_cons.mp hs
    unfold insertFile
    by_cases hlt : strLtB (basename p.1) (basename a.1) = true
    · rw [if_pos hlt]
      refine List.pairwise_cons.mpr ⟨?_, ih htail⟩
      intro x hx
      have hx' : x ∈ a :: l := (insertFile_perm a l).mem_iff.mp hx
      rcases List.mem_cons.mp hx' with rfl | hmem
      · exact strLtB_asymm _ _ hlt
      · exact hhead x hmem
    · rw [if_neg hlt]
      have hpa : strLtB (basename p.1) (basename a.1) = false := by
        cases hb : strLtB (basename p.1) (basename a.1) with
        | true => exact absurd hb hlt
        | false => rfl
      refine List.pairwise_cons.mpr ⟨?_, hs⟩
      intro x hx
      rcases List.mem_cons.mp hx with rfl | hmem
      · exact hpa
      · exact strLtB_le_trans _ _ _ hpa (hhead x hmem)

theorem sortFiles_sorted : ∀ l : List (String × Tile),
    List.Pairwise (fun p q => strLtB (basename q.1) (basename p.1) = false) (sortFiles l) := by
  intro l
  induction l with
  | nil => exact List.Pairwise.nil
  | cons a l ih => exact insertFile_sorted a (sortFiles l) ih

theorem sorted_perm_eq :
    ∀ (l1 l2 : List (String × Tile)),
      List.Pairwise (fun p q => strLtB (basename q.1) (basename p.1) = false) l1 →
      List.Pairwise (fun p q => strLtB (basename q.1) (basename p.1) = false) l2 →
      l1.Perm l2 → (l1.map (fun p => basename p.1)).Nodup → l1 = l2 := by
  intro l1
  induction l1 with
  | nil =>
    intro l2 _ _ hperm _
    exact (List.Perm.nil_eq hperm).symm ▸ rfl
  | cons x xs ih =>
    intro l2 hs1 hs2 hperm hnd
    cases l2 with
    | nil => exact absurd hperm.symm (by simp)
    | cons y ys =>
      obtain ⟨hh1, ht1⟩ := List.pairwise_cons.mp hs1
      obtain ⟨hh2, ht2⟩ := List.pairwise_cons.mp hs2
      have hxy : x = y := by
        have hxmem : x ∈ y :: ys := hperm.mem_iff.mp (List.mem_cons_self x xs)
        rcases List.mem_cons.mp hxmem with rfl | hxys
        · rfl
        · have hymem : y ∈ x :: xs := hperm.symm.mem_iff.mp (List.mem_cons_self y ys)
          rcases List.mem_cons.mp hymem with rfl | hyxs
          · rfl
          · have h1 : strLtB (basename y.1) (basename x.1) = false := hh1 y hyxs
            have h2 : strLtB (basename x.1) (basename y.1) = false := hh2 x hxys
            have hkey : basename x.1 = basename y.1 := strLtB_conn _ _ h2 h1
            have hnd1 := List.nodup_cons.mp hnd
            have hymap : basename y.1 ∈ xs.map (fun p => basename p.1) :=
              List.mem_map_of_mem (fun p => basename p.1) hyxs
            rw [← hkey] at hymap
            exact absurd hymap hnd1.1
      subst hxy
      have hperm2 : xs.Perm ys := hperm.cons_inv
      rw [ih ys ht1 ht2 hperm2 (List.nodup_cons.mp hnd).2]

theorem sortFiles_eq_of_perm {l1 l2 : List (String × Tile)} (hperm : l1.Perm l2)
    (hnd : (l1.map (fun p => basename p.1)).Nodup) : sortFiles l1 = sortFiles l2 := by
  apply sorted_perm_eq _ _ (sortFiles_sorted l1) (sortFiles_sorted l2)
  · exact (sortFiles_perm l1).trans (hperm.trans (sortFiles_perm l2).symm)
  · have hmp : (l1.map (fun p => basename p.1)).Perm
        ((sortFiles l1).map (fun p => basename p.1)) :=
      ((sortFiles_perm l1).map (fun p => basename p.1)).symm
    exact hmp.nodup_iff.mp hnd

/-- C6 (amended): permuting the input file list does not change the
output raster, provided the base file names of the inputs are pairwise
distinct: the stable sort by base name then yields the same sorted
list, and the merge depends only on that list.  (With duplicate base
names the stable sort preserves argument order among equals, and the
output metadata taken from the last sorted file can change, see the
counterexample.) -/
theorem merge_perm_invariant (l1 l2 : List (String × Tile)) (hperm : l1.Perm l2)
    (hnd : (l1.map (fun p => basename p.1)).Nodup) : merge l1 = merge l2 := by
  unfold merge
  rw [sortFiles_eq_of_perm hperm hnd]

/-- C6 counterexample: two files with the same base file name t.tif in
different directories.  Swapping the argument order changes which file
the stable sort keeps last, and with it the output's projection: the
claim that every permutation of the input list produces an identical
output raster is false. -/
theorem merge_perm_counterexample :
    ([(("a/t.tif"), tP6), (("b/t.tif"), tQ6)] : List (String × Tile)).Perm
      [(("b/t.tif"), tQ6), (("a/t.tif"), tP6)] ∧
    (merge [(("a/t.tif"), tP6), (("b/t.tif"), tQ6)]).map Output.proj = .ok ("P2") ∧
    (merge [(("b/t.tif"), tQ6), (("a/t.tif"), tP6)]).map Output.proj = .ok ("P1") ∧
    ("P2" : String) ≠ ("P1") :=
  ⟨List.Perm.swap _ _ _, by decide, by decide, by decide⟩

theorem merge_perm_invariant_witness :
    merge [(("a.tif"), tP6), (("b.tif"), tQ6)] = merge [(("b.tif"), tQ6), (("a.tif"), tP6)] :=
  merge_perm_invariant _ _ (List.Perm.swap _ _ _) (by decide)

theorem getLastD_map {α β : Type} (f : α → β) (l : List α) (d : α) :
    (l.map f).getLastD (f d) = f (l.getLastD d) := by
  induction l generalizing d with
  | nil => rfl
  | cons a l ih =>
    rw [List.map_cons, List.getLastD_cons, List.getLastD_cons]
    exact ih a

/-- C10 (amended): a successful merge takes its band count, resolution
and projection descriptor from whichever input file is last in the
lexicographically sorted order, with no verification that the other
tiles agree; the output driver however is always GTiff (get_bounds
does return the last tile's driver, but merge never uses it). -/
theorem metadata_from_last_sorted (files : List (String × Tile)) (out : Output)
    (hm : merge files = .ok out) :
    ∃ f rest, sortFiles files = f :: rest ∧
      out.bands = (rest.getLastD f).2.bands ∧
      out.trans.resx = (rest.getLastD f).2.trans.resx ∧
      out.trans.resy = (rest.getLastD f).2.trans.resy ∧
      out.proj = (rest.getLastD f).2.proj ∧
      out.drv = ("GTiff") := by
  obtain ⟨gb, hgb, hcols, hrows, hbands, htrans, hproj, hdrv, hc0, hr0, hbn0, p0, hp0, hd0, hbs⟩ :=
    mergeSpec hm
  cases hsort : sortFiles files with
  | nil =>
    rw [hsort] at hgb
    exact absurd hgb (by simp [get_bounds])
  | cons f rest =>
    rw [hsort, List.map_cons] at hgb
    obtain ⟨hrx, hry, hdr, hbn, hpj⟩ := get_bounds_last_meta hgb
    rw [getLastD_map Prod.snd rest f] at hrx hry hdr hbn hpj
    refine ⟨f, rest, rfl, ?_, ?_, ?_, ?_, hdrv⟩
    · rw [hbands, hbn]
    · rw [htrans]
      show gb.resx = _
      rw [hrx]
    · rw [htrans]
      show gb.resy = _
      rw [hry]
    · rw [hproj, hpj]

/-- C10 counterexample: the output driver is not taken from the last
input file: get_bounds reads the last tile's driver (here HFA), but
merge always creates the output with the GTiff driver. -/
theorem output_driver_not_from_last :
    (get_bounds [t10a, t10b]).map GB.drv = .ok ("HFA") ∧
    (merge [(("a.tif"), t10a), (("b.tif"), t10b)]).map Output.drv = .ok ("GTiff") ∧
    ("HFA" : String) ≠ ("GTiff") :=
  ⟨by decide, by decide, by decide⟩

theorem metadata_from_last_sorted_witness :
    ∃ out, merge [(("a.tif"), t10a), (("b.tif"), t10b)] = .ok out ∧
      (∃ f rest, sortFiles [(("a.tif"), t10a), (("b.tif"), t10b)] = f :: rest ∧
        out.bands = (rest.getLastD f).2.bands ∧
        out.trans.resx = (rest.getLastD f).2.trans.resx ∧
        out.trans.resy = (rest.getLastD f).2.trans.resy ∧
        out.proj = (rest.getLastD f).2.proj ∧
        out.drv = ("GTiff")) := by
  obtain ⟨out, hout⟩ :=
    exists_ok_of_isOkE (e := merge [(("a.tif"), t10a), (("b.tif"), t10b)]) (by decide)
  exact ⟨out, hout, metadata_from_last_sorted _ _ hout⟩

theorem get_bounds_not_bo (l : List Tile) : get_bounds l ≠ .error .boundsOverflow := by
  unfold get_bounds
  split
  · simp
  · dsimp only
    split <;> simp

theorem stripSpec_not_bo (T : GT) (colsOut rowsOut : ℕ) (t : Tile) (cols1 : ℤ) (r1 : ℕ) :
    stripSpec T colsOut rowsOut t cols1 r1 ≠ .error .boundsOverflow := by
  unfold stripSpec
  dsimp only
  split
  · simp
  · split
    · simp
    · split <;> simp

theorem rowStep_not_bo (T : GT) (colsOut rowsOut b : ℕ) (t : Tile) (cols1 : ℤ)
    (st : Buf × Buf) (r1 : ℕ) :
    rowStep T colsOut rowsOut b t cols1 st r1 ≠ .error .boundsOverflow := by
  intro hcon
  unfold rowStep at hcon
  cases hss : stripSpec T colsOut rowsOut t cols1 r1 with
  | error e =>
    simp only [hss] at hcon
    injection hcon with h
    rw [h] at hss
    exact stripSpec_not_bo T colsOut rowsOut t cols1 r1 hss
  | ok q =>
    obtain ⟨re, s, w⟩ := q
    simp only [hss] at hcon
    split at hcon <;> simp at hcon

theorem foldlM_not_bo {α β : Type} {f : β → α → Except MErr β}
    (hf : ∀ st a, f st a ≠ .error .boundsOverflow) :
    ∀ (l : List α) (st : β), List.foldlM f st l ≠ .error .boundsOverflow := by
  intro l
  induction l with
  | nil =>
    intro st
    rw [List.foldlM_nil]
    exact fun h => Except.noConfusion h
  | cons a l ih =>
    intro st
    rw [List.foldlM_cons]
    cases h1 : f st a with
    | error e =>
      rw [except_bind_error]
      intro hcon
      rw [hcon] at h1
      exact hf st a h1
    | ok st1 =>
      rw [except_bind_ok]
      exact ih st1

theorem tileStep_not_bo (T : GT) (colsOut rowsOut b : ℕ) (st : Buf × Buf) (t : Tile) :
    tileStep T colsOut rowsOut b st t ≠ .error .boundsOverflow := by
  intro hcon
  unfold tileStep at hcon
  cases hgb : get_bounds [t] with
  | error e =>
    simp only [hgb] at hcon
    injection hcon with h
    rw [h] at hgb
    exact get_bounds_not_bo [t] hgb
  | ok gb1 =>
    simp only [hgb] at hcon
    split at hcon
    · simp at hcon
    · exact foldlM_not_bo (fun s a => rowStep_not_bo T colsOut rowsOut b t gb1.cols s a)
        (intRange gb1.rows) st hcon

theorem tilesPass_not_bo (T : GT) (colsOut rowsOut b : ℕ) (tiles : List Tile)
    (st : Buf × Buf) : tilesPass T colsOut rowsOut b tiles st ≠ .error .boundsOverflow := by
  unfold tilesPass
  exact foldlM_not_bo (fun s a => tileStep_not_bo T colsOut rowsOut b s a) tiles st

theorem bandStep_not_bo (T : GT) (colsOut rowsOut : ℕ) (tiles : List Tile)
    (st : Buf × (ℕ → Buf)) (b : ℕ) :
    bandStep T colsOut rowsOut tiles st b ≠ .error .boundsOverflow := by
  intro hcon
  unfold bandStep at hcon
  cases hp : tilesPass T colsOut rowsOut b tiles (st.1, zeroBuf) with
  | error e =>
    simp only [hp] at hcon
    injection hcon with h
    rw [h] at hp
    exact tilesPass_not_bo T colsOut rowsOut b tiles (st.1, zeroBuf) hp
  | ok p =>
    simp only [hp] at hcon
    split at hcon <;> simp at hcon

theorem bandsFold_not_bo (T : GT) (colsOut rowsOut : ℕ) (tiles : List Tile) (bands : ℕ) :
    bandsFold T colsOut rowsOut tiles bands ≠ .error .boundsOverflow := by
  unfold bandsFold
  exact foldlM_not_bo (fun s a => bandStep_not_bo T colsOut rowsOut tiles s a) _ _

/-- C7 (amended): the merge never fails with the BoundsOverflowError
the specification describes, for any input whatsoever; an input tile
whose top-left pixel-center coordinate maps outside the output grid
instead makes the merge fail with a generic numpy IndexError, as the
concrete two-tile input of the counterexample shows (only the
right-edge column overflow is handled silently, by clipping the span
to min(cols - c, cols1)). -/
theorem no_bounds_overflow_error :
    (∀ files : List (String × Tile), merge files ≠ .error .boundsOverflow) ∧
    errOf (merge [(("a.tif"), t7fine), (("b.tif"), t7coarse)]) = some .indexError := by
  constructor
  · intro files hcon
    unfold merge at hcon
    cases hgb : get_bounds ((sortFiles files).map Prod.snd) with
    | error e =>
      simp only [hgb] at hcon
      injection hcon with h
      rw [h] at hgb
      exact get_bounds_not_bo _ hgb
    | ok gb =>
      simp only [hgb] at hcon
      split at hcon
      · simp at hcon
      · cases hbf : bandsFold (outTransOf gb) gb.cols.toNat gb.rows.toNat
            ((sortFiles files).map Prod.snd) gb.bands with
        | error e =>
          simp only [hbf] at hcon
          injection hcon with h
          rw [h] at hbf
          exact bandsFold_not_bo _ _ _ _ _ hbf
        | ok p =>
          simp only [hbf] at hcon
          exact Except.noConfusion hcon
  · decide

/-- C7 counterexample: with a fine bottom tile (a.tif) and a coarse
tile sorted last (b.tif), the output grid has 3 rows, yet the fine
tile's top-left pixel-center maps to output row 3 - outside the grid;
the merge does not fail with BoundsOverflowError but with a generic
IndexError, refuting the claimed disjunction. -/
theorem bounds_overflow_counterexample :
    (get_bounds [t7fine, t7coarse]).map
      (fun gb => (gb.rows, to_r (to_y 0 t7fine.trans) (outTransOf gb))) = .ok (3, 3) ∧
    errOf (merge [(("a.tif"), t7fine), (("b.tif"), t7coarse)]) = some .indexError ∧
    MErr.indexError ≠ .boundsOverflow :=
  ⟨by decide, by decide, by decide⟩

theorem tileStep_band_lt {T : GT} {colsOut rowsOut b : ℕ} {st st' : Buf × Buf} {t : Tile}
    (h : tileStep T colsOut rowsOut b st t = .ok st') : b < t.bands := by
  unfold tileStep at h
  cases hgb : get_bounds [t] with
  | error e => simp only [hgb] at h; exact absurd h (by simp)
  | ok gb1 =>
    simp only [hgb] at h
    by_cases hble : t.bands ≤ b
    · rw [if_pos hble] at h
      exact absurd h (by simp)
    · omega

theorem tilesPass_band_lt {T : GT} {colsOut rowsOut b : ℕ} {tiles : List Tile}
    {st st' : Buf × Buf} (h : tilesPass T colsOut rowsOut b tiles st = .ok st') :
    ∀ t ∈ tiles, b < t.bands := by
  unfold tilesPass at h
  intro t ht
  obtain ⟨s, s', hs⟩ := foldlM_ok_forall h t ht
  exact tileStep_band_lt hs

/-- C8 (amended): a tile with fewer bands than the resolved output
band count is fatal for the whole merge - a merge can succeed only if
every input tile has at least the output's band count (processing a
missing band fails with a generic missing-band error, not a
GeometryError); a resolution mismatch, by contrast, is not checked at
all and such a tile is silently processed against the mismatched
output grid (see the counterexample). -/
theorem missing_band_fatal (files : List (String × Tile)) (out : Output)
    (hm : merge files = .ok out) : ∀ p ∈ sortFiles files, out.bands ≤ p.2.bands := by
  obtain ⟨gb, hgb, hcols, hrows, hbands, htrans, hproj, hdrv, hc0, hr0, hbn0, p0, hp0, hd0, hbs⟩ :=
    mergeSpec hm
  intro p hp
  have hmem : p.2 ∈ (sortFiles files).map Prod.snd := List.mem_map_of_mem Prod.snd hp
  rw [hbands]
  by_cases h1 : gb.bands = 1
  · have := tilesPass_band_lt hp0 p.2 hmem
    omega
  · obtain ⟨sm, hsm, _⟩ := hbs (gb.bands - 1) (by omega) (by omega)
    have := tilesPass_band_lt hsm p.2 hmem
    omega

/-- C8 counterexample: a tile (a.tif) whose resolution disagrees with
the resolved output grid (pixel width 1/2 against the output's 1) is
not a fatal condition: the merge succeeds and the tile is processed
anyway, so the claim that a resolution disagreement aborts the merge
is false. -/
theorem resolution_mismatch_not_fatal :
    t8fine.trans.resx ≠ t8coarse.trans.resx ∧
    (get_bounds [t8fine, t8coarse]).map GB.resx = .ok 1 ∧
    t8fine.trans.resx = 1 / 2 ∧
    isOkE (merge [(("a.tif"), t8fine), (("b.tif"), t8coarse)]) = true :=
  ⟨by decide, by decide, by decide, by decide⟩

theorem missing_band_fatal_witness :
    ∃ out, merge [(("a.tif"), t8fine), (("b.tif"), t8coarse)] = .ok out ∧
      ∀ p ∈ sortFiles [(("a.tif"), t8fine), (("b.tif"), t8coarse)], out.bands ≤ p.2.bands := by
  obtain ⟨out, hout⟩ :=
    exists_ok_of_isOkE (e := merge [(("a.tif"), t8fine), (("b.tif"), t8coarse)]) (by decide)
  exact ⟨out, hout, missing_band_fatal _ _ hout⟩

/-- C3: the cells excluded from accumulation are the cells equal to
the fixed output sentinel -9999, not the cells equal to the tile's own
no-data sentinel from its metadata.  For a tile whose metadata
sentinel is 5 with band-0 samples -9999, 7 and 5, the merged count
layer is 0, 7 and 5: the sample equal to the tile's sentinel 5 is
accumulated, while the sample -9999 (valid data under the tile's
metadata) is masked.  The variable nd1 holding the tile's sentinel is
read by the script and never used. -/
theorem nodata_mask_uses_fixed_sentinel :
    t3nod.nodata 0 = 5 ∧ (5 : ℚ) ≠ nd ∧
    (merge [(("t.tif"), t3nod)]).map (fun o => (o.data 0 0 0, o.data 0 0 1, o.data 0 0 2)) =
      .ok (0, 7, 5) :=
  ⟨by decide, by decide, by decide⟩

theorem okProj {ε α β : Type} {e : Except ε α} {o : α} (f : α → β) {v : β}
    (he : e = .ok o) (hm : e.map f = .ok v) : f o = v := by
  rw [he] at hm
  simpa [Except.map] using hm

theorem get_bounds_union_bbox_witness :
    ∃ gb, get_bounds [wTile] = .ok gb ∧
      (∀ t ∈ [wTile],
        gb.b0 ≤ min t.trans.x0 (tileX2 t) ∧ gb.b1 ≤ min t.trans.y0 (tileY2 t) ∧
        max t.trans.x0 (tileX2 t) ≤ gb.b2 ∧ max t.trans.y0 (tileY2 t) ≤ gb.b3) ∧
      (∃ t ∈ [wTile], gb.b0 = min t.trans.x0 (tileX2 t)) ∧
      (∃ t ∈ [wTile], gb.b1 = min t.trans.y0 (tileY2 t)) ∧
      (∃ t ∈ [wTile], gb.b2 = max t.trans.x0 (tileX2 t)) ∧
      (∃ t ∈ [wTile], gb.b3 = max t.trans.y0 (tileY2 t)) ∧
      gb.cols = ⌊(gb.b2 - gb.b0) / |gb.resx|⌋ ∧
      gb.rows = ⌊(gb.b3 - gb.b1) / |gb.resy|⌋ :=
  get_bounds_union_bbox wTile [] (by decide) (by decide)

theorem counts_immutable_after_band0_witness :
    ∃ st', tilesPass ⟨0, 1, 1, -1⟩ 1 1 1 [wTile] (zeroBuf, zeroBuf) = .ok st' ∧
      st'.1 = zeroBuf := by
  obtain ⟨st', hst⟩ :=
    exists_ok_of_isOkE (e := tilesPass ⟨0, 1, 1, -1⟩ 1 1 1 [wTile] (zeroBuf, zeroBuf)) (by decide)
  exact ⟨st', hst, counts_immutable_after_band0 _ _ _ _ _ _ _ (le_refl 1) hst⟩

theorem nodata_propagation_witness :
    ∃ out, merge [(("t.tif"), t4z)] = .ok out ∧
      out.data 1 0 0 = -9999 ∧ out.data 1 0 1 = 8 := by
  obtain ⟨out, hout⟩ := exists_ok_of_isOkE (e := merge [(("t.tif"), t4z)]) (by decide)
  have hbands : out.bands = 2 := okProj (fun o => o.bands) hout (by decide)
  have hrows : out.rows = 1 := okProj (fun o => o.rows) hout (by decide)
  have hcols : out.cols = 2 := okProj (fun o => o.cols) hout (by decide)
  have htrans : out.trans = ⟨0, 1, 1, -1⟩ := okProj (fun o => o.trans) hout (by decide)
  have hd00 : out.data 0 0 0 = 0 := okProj (fun o => o.data 0 0 0) hout (by decide)
  have hd01 : out.data 0 0 1 = 4 := okProj (fun o => o.data 0 0 1) hout (by decide)
  have h1 := nodata_propagation [(("t.tif"), t4z)] out 1 0 0 hout (le_refl 1)
    (by omega) (by omega) (by omega)
  have h2 := nodata_propagation [(("t.tif"), t4z)] out 1 0 1 hout (le_refl 1)
    (by omega) (by omega) (by omega)
  refine ⟨out, hout, ?_, ?_⟩
  · rw [h1.1 hd00]
    decide
  · rw [h2.2 (by rw [hd01]; norm_num), hd01, htrans, hcols, hrows]
    decide

theorem count_sum_correct_witness :
    ∃ out, merge [(("a.tif"), sA), (("b.tif"), sB)] = .ok out ∧ out.data 0 0 1 = 5 := by
  obtain ⟨out, hout⟩ :=
    exists_ok_of_isOkE (e := merge [(("a.tif"), sA), (("b.tif"), sB)]) (by decide)
  have hrows : out.rows = 2 := okProj (fun o => o.rows) hout (by decide)
  have hcols : out.cols = 3 := okProj (fun o => o.cols) hout (by decide)
  have htrans : out.trans = ⟨0, 1, 2, -1⟩ := okProj (fun o => o.trans) hout (by decide)
  have hmap : (sortFiles [(("a.tif"), sA), (("b.tif"), sB)]).map Prod.snd = [sA, sB] := rfl
  have hcov : ∀ t ∈ (sortFiles [(("a.tif"), sA), (("b.tif"), sB)]).map Prod.snd,
      CoverSpec out.trans out.cols out.rows 0 t 0 1
        ((fun u => if u.trans.x0 = 0 then (2:ℚ) else 3) t)
        ((fun u => if u.trans.x0 = 0 then (2:ℚ) else 3) t) := by
    rw [hmap, htrans, hcols, hrows]
    intro t ht
    rcases List.mem_cons.mp ht with rfl | ht2
    · exact Or.inl ⟨0, by decide, by decide, by decide, by decide, by decide⟩
    · rcases List.mem_cons.mp ht2 with rfl | ht3
      · exact Or.inl ⟨0, by decide, by decide, by decide, by decide, by decide⟩
      · exact absurd ht3 (by simp)
  have h := count_sum_correct _ out 0 1 (fun u => if u.trans.x0 = 0 then (2:ℚ) else 3)
    hout (by omega) (by omega) hcov
  refine ⟨out, hout, ?_⟩
  rw [h, hmap]
  decide

theorem weighted_mean_correct_witness :
    ∃ out, merge [(("a.tif"), sA), (("b.tif"), sB)] = .ok out ∧ out.data 1 0 1 = 16 := by
  obtain ⟨out, hout⟩ :=
    exists_ok_of_isOkE (e := merge [(("a.tif"), sA), (("b.tif"), sB)]) (by decide)
  have hbands : out.bands = 2 := okProj (fun o => o.bands) hout (by decide)
  have hrows : out.rows = 2 := okProj (fun o => o.rows) hout (by decide)
  have hcols : out.cols = 3 := okProj (fun o => o.cols) hout (by decide)
  have htrans : out.trans = ⟨0, 1, 2, -1⟩ := okProj (fun o => o.trans) hout (by decide)
  have hmap : (sortFiles [(("a.tif"), sA), (("b.tif"), sB)]).map Prod.snd = [sA, sB] := rfl
  have hcov : ∀ t ∈ (sortFiles [(("a.tif"), sA), (("b.tif"), sB)]).map Prod.snd,
      CoverSpec out.trans out.cols out.rows 1 t 0 1
        ((fun u => if u.trans.x0 = 0 then (2:ℚ) else 3) t)
        ((fun u => if u.trans.x0 = 0 then (10:ℚ) else 20) t) := by
    rw [hmap, htrans, hcols, hrows]
    intro t ht
    rcases List.mem_cons.mp ht with rfl | ht2
    · exact Or.inl ⟨0, by decide, by decide, by decide, by decide, by decide⟩
    · rcases List.mem_cons.mp ht2 with rfl | ht3
      · exact Or.inl ⟨0, by decide, by decide, by decide, by decide, by decide⟩
      · exact absurd ht3 (by simp)
  have hpos : 0 < (((sortFiles [(("a.tif"), sA), (("b.tif"), sB)]).map Prod.snd).map
      (fun u => if u.trans.x0 = 0 then (2:ℚ) else 3)).sum := by
    rw [hmap]
    decide
  have h := weighted_mean_correct _ out 1 0 1
    (fun u => if u.trans.x0 = 0 then (2:ℚ) else 3)
    (fun u => if u.trans.x0 = 0 then (10:ℚ) else 20)
    hout (le_refl 1) (by omega) (by omega) (by omega) hcov hpos
  refine ⟨out, hout, ?_⟩
  rw [h, hmap]
  decide
